import Mathlib

/-!
Verification development for the travel-concierge task orchestration engine.

The definitions below are a shallow embedding of the Python sources:
`backend/schema/travel_classes.py` (the `Task` data model),
`backend/src/main_agent.py` (the task executor `_execute_single_task` /
`_execute_tasks_concurrent`, the task merger `_merge_tasks`, and the
iteration loop in `generate`),
`backend/src/state_manager.py` (the state store `_deep_merge`, `get_state`,
`update_state`, `get_proposed_state_diff`), and
`backend/src/tools_resgistry.py` (`execute_tool_by_name`,
`_validate_task_routing`).

Python values (the `Any`-typed requests, responses and state entries) are
embedded as a JSON-like `Value` type; Python `dict`s are association lists
with insertion-order semantics; Python `None` is `Value.null`.
-/

namespace TravelConcierge

/-- JSON-like value domain for Python objects handled by the engine. -/
inductive Value where
  | null : Value
  | bool (b : Bool) : Value
  | int (n : Int) : Value
  | str (s : String) : Value
  | list (xs : List Value) : Value
  | dict (kvs : List (String × Value)) : Value
deriving Repr, Inhabited

mutual

/-- Structural equality test on `Value` (Python `==` on JSON-like data). -/
def Value.beq : Value → Value → Bool
  | .null, .null => true
  | .bool a, .bool b => a == b
  | .int a, .int b => a == b
  | .str a, .str b => a == b
  | .list xs, .list ys => Value.beqList xs ys
  | .dict xs, .dict ys => Value.beqKvs xs ys
  | _, _ => false

/-- Elementwise equality on value lists. -/
def Value.beqList : List Value → List Value → Bool
  | [], [] => true
  | x :: xs, y :: ys => Value.beq x y && Value.beqList xs ys
  | _, _ => false

/-- Elementwise equality on key-value lists. -/
def Value.beqKvs : List (String × Value) → List (String × Value) → Bool
  | [], [] => true
  | (k, v) :: xs, (l, w) :: ys => k == l && Value.beq v w && Value.beqKvs xs ys
  | _, _ => false

end

instance : BEq Value := ⟨Value.beq⟩

mutual

theorem Value.beq_refl : ∀ v : Value, Value.beq v v = true
  | .null => rfl
  | .bool b => by simp [Value.beq]
  | .int n => by simp [Value.beq]
  | .str s => by simp [Value.beq]
  | .list xs => by simp [Value.beq, Value.beqList_refl xs]
  | .dict kvs => by simp [Value.beq, Value.beqKvs_refl kvs]

theorem Value.beqList_refl : ∀ xs : List Value, Value.beqList xs xs = true
  | [] => rfl
  | x :: xs => by simp [Value.beqList, Value.beq_refl x, Value.beqList_refl xs]

theorem Value.beqKvs_refl : ∀ xs : List (String × Value), Value.beqKvs xs xs = true
  | [] => rfl
  | (k, v) :: xs => by simp [Value.beqKvs, Value.beq_refl v, Value.beqKvs_refl xs]

end

mutual

theorem Value.eq_of_beq : ∀ {a b : Value}, Value.beq a b = true → a = b
  | .null, .null, _ => rfl
  | .bool _, .bool _, h => by simp [Value.beq] at h; simp [h]
  | .int _, .int _, h => by simp [Value.beq] at h; simp [h]
  | .str _, .str _, h => by simp [Value.beq] at h; simp [h]
  | .list xs, .list ys, h => by
      simp only [Value.beq] at h
      simp [Value.eqList_of_beq h]
  | .dict xs, .dict ys, h => by
      simp only [Value.beq] at h
      simp [Value.eqKvs_of_beq h]
  | .null, .bool _, h => by simp [Value.beq] at h
  | .null, .int _, h => by simp [Value.beq] at h
  | .null, .str _, h => by simp [Value.beq] at h
  | .null, .list _, h => by simp [Value.beq] at h
  | .null, .dict _, h => by simp [Value.beq] at h
  | .bool _, .null, h => by simp [Value.beq] at h
  | .bool _, .int _, h => by simp [Value.beq] at h
  | .bool _, .str _, h => by simp [Value.beq] at h
  | .bool _, .list _, h => by simp [Value.beq] at h
  | .bool _, .dict _, h => by simp [Value.beq] at h
  | .int _, .null, h => by simp [Value.beq] at h
  | .int _, .bool _, h => by simp [Value.beq] at h
  | .int _, .str _, h => by simp [Value.beq] at h
  | .int _, .list _, h => by simp [Value.beq] at h
  | .int _, .dict _, h => by simp [Value.beq] at h
  | .str _, .null, h => by simp [Value.beq] at h
  | .str _, .bool _, h => by simp [Value.beq] at h
  | .str _, .int _, h => by simp [Value.beq] at h
  | .str _, .list _, h => by simp [Value.beq] at h
  | .str _, .dict _, h => by simp [Value.beq] at h
  | .list _, .null, h => by simp [Value.beq] at h
  | .list _, .bool _, h => by simp [Value.beq] at h
  | .list _, .int _, h => by simp [Value.beq] at h
  | .list _, .str _, h => by simp [Value.beq] at h
  | .list _, .dict _, h => by simp [Value.beq] at h
  | .dict _, .null, h => by simp [Value.beq] at h
  | .dict _, .bool _, h => by simp [Value.beq] at h
  | .dict _, .int _, h => by simp [Value.beq] at h
  | .dict _, .str _, h => by simp [Value.beq] at h
  | .dict _, .list _, h => by simp [Value.beq] at h

theorem Value.eqList_of_beq : ∀ {xs ys : List Value}, Value.beqList xs ys = true → xs = ys
  | [], [], _ => rfl
  | x :: xs, y :: ys, h => by
      simp only [Value.beqList, Bool.and_eq_true] at h
      simp [Value.eq_of_beq h.1, Value.eqList_of_beq h.2]
  | [], _ :: _, h => by simp [Value.beqList] at h
  | _ :: _, [], h => by simp [Value.beqList] at h

theorem Value.eqKvs_of_beq : ∀ {xs ys : List (String × Value)},
    Value.beqKvs xs ys = true → xs = ys
  | [], [], _ => rfl
  | (k, v) :: xs, (l, w) :: ys, h => by
      simp only [Value.beqKvs, Bool.and_eq_true] at h
      obtain ⟨⟨hk, hv⟩, hs⟩ := h
      simp only [beq_iff_eq] at hk
      simp [hk, Value.eq_of_beq hv, Value.eqKvs_of_beq hs]
  | [], _ :: _, h => by simp [Value.beqKvs] at h
  | _ :: _, [], h => by simp [Value.beqKvs] at h

end

instance : DecidableEq Value := fun a b =>
  if h : Value.beq a b = true then
    .isTrue (Value.eq_of_beq h)
  else
    .isFalse (fun he => h (he ▸ Value.beq_refl a))

/-! Python dict operations (association lists with insertion order). -/

/-- Python `dict` lookup (`d[k]` / `k in d` support): first binding wins. -/
def dictFind : List (String × Value) → String → Option Value
  | [], _ => none
  | (k, v) :: rest, key => if k = key then some v else dictFind rest key

/-- Python `d.get(k)`: `None` (here `Value.null`) when the key is absent. -/
def pyGet (kvs : List (String × Value)) (key : String) : Value :=
  (dictFind kvs key).getD Value.null

/-- Python `k in d`. -/
def hasKey (kvs : List (String × Value)) (key : String) : Bool :=
  (dictFind kvs key).isSome

/-- Python `d[k] = v`: overwrite the binding in place if the key is present
(keeping insertion order), otherwise append the new binding. -/
def dictSet (kvs : List (String × Value)) (key : String) (v : Value) :
    List (String × Value) :=
  if hasKey kvs key then
    kvs.map (fun p => if p.1 = key then (key, v) else p)
  else
    kvs ++ [(key, v)]

/-- Python `base.update(u)`: set every binding of `u` into `base` in order. -/
def dictUpdate (base u : List (String × Value)) : List (String × Value) :=
  u.foldl (fun b kv => dictSet b kv.1 kv.2) base

/-- Python truthiness of a JSON-like value. -/
def truthy : Value → Bool
  | .null => false
  | .bool b => b
  | .int n => n != 0
  | .str s => s ≠ ""
  | .list xs => !xs.isEmpty
  | .dict kvs => !kvs.isEmpty

/-! Task data model, from `backend/schema/travel_classes.py`.
`Task` is recursive through `subtasks : List[Task]`, so it is embedded as a
nested inductive wrapping a record of fields. -/

/-- Task lifecycle status, from the comment on `Task.status`:
pending, in_progress, completed, failed. -/
inductive TaskStatus where
  | pending : TaskStatus
  | in_progress : TaskStatus
  | completed : TaskStatus
  | failed : TaskStatus
deriving DecidableEq, Repr, Inhabited

/-- Field record of a `Task` (the dataclass fields of
`travel_classes.Task`), parameterised over the subtask type to allow the
recursive knot. `error` holds an arbitrary value, since the code stores
`result["error"]` (any value) there; `execution_time` is abstracted as an
opaque duration. -/
structure TaskF (α : Type) where
  task_name : String
  function : String
  request : Value
  response : Value := Value.str ""
  agent_call_required : Bool := false
  status : TaskStatus := .pending
  error : Option Value := none
  execution_time : Option Nat := none
  subtasks : List α := []
  task_id : String := ""
  parent_task_id : Option String := none
  dependencies : List String := []
  priority : Int := 0
  retry_count : Nat := 0
  max_retries : Nat := 3
  cached : Bool := false
deriving Repr

/-- A task: one unit of work and its lifecycle. -/
inductive Task where
  | mk : TaskF Task → Task
deriving Repr

/-- The field record of a task. -/
def Task.f : Task → TaskF Task
  | .mk fs => fs

/-- Rebuild a task from an updated field record. -/
def Task.upd (t : Task) (g : TaskF Task → TaskF Task) : Task :=
  .mk (g t.f)

@[simp] def Task.task_name (t : Task) : String := t.f.task_name

@[simp] def Task.function (t : Task) : String := t.f.function

@[simp] def Task.request (t : Task) : Value := t.f.request

@[simp] def Task.response (t : Task) : Value := t.f.response

@[simp] def Task.agent_call_required (t : Task) : Bool := t.f.agent_call_required

@[simp] def Task.status (t : Task) : TaskStatus := t.f.status

@[simp] def Task.error (t : Task) : Option Value := t.f.error

@[simp] def Task.execution_time (t : Task) : Option Nat := t.f.execution_time

@[simp] def Task.subtasks (t : Task) : List Task := t.f.subtasks

@[simp] def Task.task_id (t : Task) : String := t.f.task_id

@[simp] def Task.parent_task_id (t : Task) : Option String := t.f.parent_task_id

@[simp] def Task.priority (t : Task) : Int := t.f.priority

@[simp] def Task.retry_count (t : Task) : Nat := t.f.retry_count

@[simp] def Task.max_retries (t : Task) : Nat := t.f.max_retries

@[simp] def Task.cached (t : Task) : Bool := t.f.cached

@[simp] theorem Task.f_mk (fs : TaskF Task) : (Task.mk fs).f = fs := rfl

@[simp] theorem Task.f_upd (t : Task) (g : TaskF Task → TaskF Task) :
    (t.upd g).f = g t.f := rfl

@[simp] theorem Task.status_updExec (x : Task) (d : Option Nat) :
    (x.upd (fun fs => { fs with execution_time := d })).status = x.status := by
  simp [Task.upd]

@[simp] theorem Task.retry_count_updExec (x : Task) (d : Option Nat) :
    (x.upd (fun fs => { fs with execution_time := d })).retry_count = x.retry_count := by
  simp [Task.upd]

@[simp] theorem Task.response_updExec (x : Task) (d : Option Nat) :
    (x.upd (fun fs => { fs with execution_time := d })).response = x.response := by
  simp [Task.upd]

@[simp] theorem Task.task_id_updExec (x : Task) (d : Option Nat) :
    (x.upd (fun fs => { fs with execution_time := d })).task_id = x.task_id := by
  simp [Task.upd]

@[simp] theorem Task.error_updExec (x : Task) (d : Option Nat) :
    (x.upd (fun fs => { fs with execution_time := d })).error = x.error := by
  simp [Task.upd]

@[simp] theorem Task.cached_updExec (x : Task) (d : Option Nat) :
    (x.upd (fun fs => { fs with execution_time := d })).cached = x.cached := by
  simp [Task.upd]

@[simp] theorem Task.execution_time_updExec (x : Task) (d : Option Nat) :
    (x.upd (fun fs => { fs with execution_time := d })).execution_time = d := by
  simp [Task.upd]

/-! Single-task execution routine, from `main_agent._execute_single_task`
(lines 517-573): cache short-circuit, then tool call with retry on raised
exceptions (never on error-carrying results).

The tool call is abstracted as `f : Nat → Except String Value`, giving the
outcome of the n-th registry invocation for this task: `.error e` models a
raised exception with message `str(e)`, `.ok v` a returned value.  The
elapsed wall time of the whole routine is abstracted as the parameter
`dur`, recorded into `execution_time`.  The run-scoped cache
`self.task_cache` is threaded explicitly.  Alongside the updated task and
cache the routine reports a log: the sequence of writes to `task.status`
and the number of registry invocations made. -/

/-- Python dicts used as caches: key-value list. -/
abbrev Cache := List (String × Value)

/-- Execution log of the per-task routine: status writes performed, and
number of calls into the tool registry. -/
structure ExecLog where
  statusWrites : List TaskStatus
  registryCalls : Nat
deriving Repr, DecidableEq

/-- Test `isinstance(result, dict) and "error" in result`. -/
def isErrorDict : Value → Bool
  | .dict kvs => hasKey kvs "error"
  | _ => false

/-- Python `result["error"]` for an error-carrying dict result. -/
def errValue : Value → Value
  | .dict kvs => pyGet kvs "error"
  | _ => Value.null

/-- The `while task.retry_count < task.max_retries` loop of
`_execute_single_task`: invoke the tool; an error-carrying dict result
marks the task failed at once; a success stores the response, marks
completed and populates the cache; a raised exception increments
`retry_count` and either marks failed (retries exhausted) or loops. -/
def retryLoop (f : Nat → Except String Value) (key : String) (callIdx : Nat)
    (cache : Cache) (t : Task) : Task × Cache × ExecLog :=
  if h : t.retry_count < t.max_retries then
    match f callIdx with
    | .ok result =>
        if isErrorDict result then
          (t.upd (fun fs => { fs with error := some (errValue result), status := .failed }),
           cache, ⟨[.failed], 1⟩)
        else
          (t.upd (fun fs => { fs with response := result, status := .completed }),
           dictSet cache key result, ⟨[.completed], 1⟩)
    | .error e =>
        let t' := t.upd (fun fs =>
          { fs with retry_count := fs.retry_count + 1, error := some (.str e) })
        if t'.retry_count ≥ t'.max_retries then
          (t'.upd (fun fs => { fs with status := .failed }), cache, ⟨[.failed], 1⟩)
        else
          let r := retryLoop f key (callIdx + 1) cache t'
          (r.1, r.2.1, ⟨r.2.2.statusWrites, r.2.2.registryCalls + 1⟩)
  else
    (t, cache, ⟨[], 0⟩)
termination_by t.max_retries - t.retry_count
decreasing_by
  simp [Task.retry_count, Task.max_retries, Task.upd, Task.f] at *
  omega

/-- Embedding of `_execute_single_task`: mark in_progress, consult the
run-scoped cache under key `"task_" ++ task_id` (a cached response equal to
Python `None` is indistinguishable from an absent entry, per `dict.get`),
then run the retry loop; record the elapsed time in every case. -/
def executeSingleTask (f : Nat → Except String Value) (dur : Nat)
    (cache : Cache) (t0 : Task) : Task × Cache × ExecLog :=
  let t := t0.upd (fun fs => { fs with status := .in_progress })
  let key := "task_" ++ t.task_id
  let cachedResponse := pyGet cache key
  if cachedResponse ≠ Value.null then
    (t.upd (fun fs => { fs with response := cachedResponse, status := .completed,
                                cached := true, execution_time := some dur }),
     cache, ⟨[.in_progress, .completed], 0⟩)
  else
    let r := retryLoop f key 0 cache t
    (r.1.upd (fun fs => { fs with execution_time := some dur }), r.2.1,
     ⟨.in_progress :: r.2.2.statusWrites, r.2.2.registryCalls⟩)

/-! Concurrent task executor, from `main_agent._execute_tasks_concurrent`
(lines 439-515).  A plan is the dict built by `_travel_planner`: the four
categories in insertion order flights, hotels, trains, maps, each holding
an ordered task list.  The worker pool is modelled by a sequential
linearisation in dispatch order (the aggregation in the source does not
depend on completion order). -/

/-- The four plan categories, in the insertion order of the source dict. -/
inductive Category where
  | flights : Category
  | hotels : Category
  | trains : Category
  | maps : Category
deriving DecidableEq, Repr, Inhabited

/-- A plan: category name to ordered task list, all four categories
always present. -/
structure Plan where
  flights : List Task
  hotels : List Task
  trains : List Task
  maps : List Task

/-- The task list of one category. -/
def Plan.get (p : Plan) : Category → List Task
  | .flights => p.flights
  | .hotels => p.hotels
  | .trains => p.trains
  | .maps => p.maps

/-- Iteration order of `task_structure.items()`. -/
def categoryOrder : List Category := [.flights, .hotels, .trains, .maps]

/-- Collect every `(category, task)` whose status is `pending`, iterating
categories in dict insertion order and tasks in list order. -/
def collectPending (p : Plan) : List (Category × Task) :=
  categoryOrder.flatMap (fun c =>
    ((p.get c).filter (fun t => t.status = .pending)).map (fun t => (c, t)))

/-- Insert into a priority-descending sorted list, after every element of
strictly higher priority and before the first of lower-or-equal priority
(so that, building with `List.foldr`, earlier elements of the original
list come first among equal priorities). -/
def insertDesc (x : Category × Task) : List (Category × Task) → List (Category × Task)
  | [] => [x]
  | y :: ys =>
      if y.2.priority ≤ x.2.priority then x :: y :: ys else y :: insertDesc x ys

/-- Embedding of `pending_tasks.sort(key=lambda x: x[1].priority,
reverse=True)`: the stable sort of the collected tasks by priority
descending. -/
def sortByPriorityDesc (l : List (Category × Task)) : List (Category × Task) :=
  l.foldr insertDesc []

/-- Execution summary returned by the executor. -/
structure ExecSummary where
  total_count : Nat
  completed_count : Nat
  failed_count : Nat
  total_execution_time : Nat
deriving Repr, DecidableEq

/-- Run the dispatched tasks in order, threading the run-scoped cache, and
tally outcomes as the fan-in loop does: a task whose final status is
`completed` increments `completed_count`, one whose final status is
`failed` increments `failed_count`, and each task's elapsed time is added
to the total.  Returns the finished `(category, task)` pairs in dispatch
order, the final cache, and the three accumulators. -/
def runTasks (f : Category → String → Value → Nat → Except String Value)
    (dur : Nat → Nat) : Nat → Cache → List (Category × Task) →
    List (Category × Task) × Cache × Nat × Nat × Nat
  | _, cache, [] => ([], cache, 0, 0, 0)
  | idx, cache, (c, t) :: rest =>
      let r := executeSingleTask (f c t.function t.request) (dur idx) cache t
      let rec' := runTasks f dur (idx + 1) r.2.1 rest
      ((c, r.1) :: rec'.1, rec'.2.1,
       (if r.1.status = .completed then rec'.2.2.1 + 1 else rec'.2.2.1),
       (if r.1.status = .completed then rec'.2.2.2.1
        else if r.1.status = .failed then rec'.2.2.2.1 + 1 else rec'.2.2.2.1),
       (dur idx) + rec'.2.2.2.2)

/-- Embedding of `_execute_tasks_concurrent`: collect pending tasks, sort
them by priority descending (stable), execute them all, and aggregate the
summary.  `f` gives the registry outcome of the n-th invocation for a
given category/function/request; `dur` the elapsed time of the task at a
given dispatch position. -/
def executeTasksConcurrent (f : Category → String → Value → Nat → Except String Value)
    (dur : Nat → Nat) (cache : Cache) (p : Plan) :
    List (Category × Task) × Cache × ExecSummary :=
  let pending := collectPending p
  if pending.isEmpty then
    ([], cache, ⟨0, 0, 0, 0⟩)
  else
    let sorted := sortByPriorityDesc pending
    let r := runTasks f dur 0 cache sorted
    (r.1, r.2.1, ⟨pending.length, r.2.2.1, r.2.2.2.1, r.2.2.2.2⟩)

/-! Task merger, from `main_agent._merge_tasks` (lines 710-735). -/

/-- Python `s.split(sep)[0]`: the first separator-delimited token. -/
def firstToken (s : String) : String :=
  (s.splitOn "_").headD ""

/-- The parent-candidate test of `_merge_tasks`: the existing task required
an oracle callback, is completed, and the new task's function name starts
with the first underscore-delimited token of the existing task's function
name (`new_task.function.startswith(existing_task.function.split('_')[0])`). -/
def parentMatch (existingTask newTask : Task) : Bool :=
  existingTask.agent_call_required && existingTask.status = TaskStatus.completed
    && newTask.function.startsWith (firstToken existingTask.function)

/-- Walk the category list looking for the first parent candidate; on a
match, set the new task's `parent_task_id` and append it to that parent's
`subtasks`, reporting success. -/
def attachNew (newTask : Task) : List Task → List Task × Bool
  | [] => ([], false)
  | e :: rest =>
      if parentMatch e newTask then
        (e.upd (fun fs =>
          { fs with subtasks := fs.subtasks ++
              [newTask.upd (fun nf => { nf with parent_task_id := some e.task_id })] }) :: rest,
         true)
      else
        let r := attachNew newTask rest
        (e :: r.1, r.2)

/-- Fold all newly proposed tasks of one category into the (live) merged
list: attach to the first parent candidate when one exists, otherwise
append as a new top-level entry. -/
def mergeCategory (ex news : List Task) : List Task :=
  news.foldl (fun acc n =>
    let r := attachNew n acc
    if r.2 then r.1 else r.1 ++ [n]) ex

/-- Embedding of `_merge_tasks`: per-category merge of newly proposed
tasks into a deep copy of the existing plan (the source never mutates its
`existing` argument; purity is inherent in this embedding). -/
def mergeTasks (existing news : Plan) : Plan :=
  { flights := mergeCategory existing.flights news.flights,
    hotels := mergeCategory existing.hotels news.hotels,
    trains := mergeCategory existing.trains news.trains,
    maps := mergeCategory existing.maps news.maps }

/-! State store, from `state_manager.py`: `_deep_merge` (lines 185-211),
`get_state`, `update_state`, `get_proposed_state_diff`. -/

/-- Python `task.get("task_id")` on a state annotation record. -/
def taskIdOf : Value → Value
  | .dict kvs => pyGet kvs "task_id"
  | _ => Value.null

/-- Shallow in-place field overwrite `existing_task.update(task)` on two
record values. -/
def recordUpdate (t u : Value) : Value :=
  match t, u with
  | .dict tk, .dict uk => .dict (dictUpdate tk uk)
  | _, _ => t

/-- Replace the first record whose `task_id` equals `tid` by its shallow
update with `task` (`next(t for t in base[key] if t.get("task_id") ==
task_id)` followed by `existing_task.update(task)`). -/
def updateFirst (tid : Value) (task : Value) : List Value → List Value
  | [] => []
  | t :: rest =>
      if taskIdOf t == tid then recordUpdate t task :: rest
      else t :: updateFirst tid task rest

/-- The snapshot `existing_task_ids`: the truthy `task_id`s of the
existing records, taken before any append. -/
def snapshotIds (base : List Value) : List Value :=
  base.filterMap (fun t =>
    let i := taskIdOf t
    if truthy i then some i else none)

/-- The `tasks`-list upsert of `_deep_merge`: the set of truthy existing
`task_id`s is snapshotted first; each incoming record whose truthy
`task_id` is in the snapshot updates the first matching record in place,
and every other incoming record is appended. -/
def upsertTasks (base incoming : List Value) : List Value :=
  let ids := snapshotIds base
  incoming.foldl (fun acc task =>
    let tid := taskIdOf task
    if truthy tid && ids.contains tid then updateFirst tid task acc
    else acc ++ [task]) base

mutual

/-- Embedding of `_deep_merge(base, updates)` as a pure function: fold the
update bindings into the base dict in order. -/
def deepMerge (base : List (String × Value)) : List (String × Value) →
    List (String × Value)
  | [] => base
  | (k, v) :: rest => deepMerge (mergeKey base k v) rest

/-- Merge one update binding: recurse when both sides are dicts; upsert by
`task_id` when the key is `"tasks"` and both sides are lists; replace the
value wholesale otherwise (`base.get(key)` yields `None`, not a list, when
the key is absent, so a fresh `"tasks"` key is also a plain set). -/
def mergeKey (base : List (String × Value)) (k : String) (v : Value) :
    List (String × Value) :=
  match dictFind base k, v with
  | some (.dict bk), .dict vk => dictSet base k (.dict (deepMerge bk vk))
  | foundB, _ =>
      if k = "tasks" then
        match foundB, v with
        | some (.list bs), .list vs => dictSet base k (.list (upsertTasks bs vs))
        | _, _ => dictSet base k v
      else dictSet base k v

end

/-- Session state store: the pure value part of `StateManager` (the
deep-copy behaviour of `get_state` is modelled separately at the heap
level below). -/
structure StateManager where
  state : List (String × Value)

/-- Embedding of `get_state` at the value level. -/
def StateManager.get_state (sm : StateManager) : List (String × Value) :=
  sm.state

/-- Embedding of `update_state` (commit): deep-merge the updates into the
stored state. -/
def StateManager.update_state (sm : StateManager)
    (updates : List (String × Value)) : StateManager :=
  ⟨deepMerge sm.state updates⟩

/-- The triple returned by `get_proposed_state_diff`. -/
structure StateDiff where
  proposed_updates : List (String × Value)
  current_state : List (String × Value)
  proposed_state : List (String × Value)
deriving Repr

/-- Embedding of `get_proposed_state_diff`: computes the diff against deep
copies and does not commit, so the manager is returned unchanged. -/
def StateManager.get_proposed_state_diff (sm : StateManager)
    (proposed_updates : List (String × Value)) : StateManager × StateDiff :=
  (sm, ⟨proposed_updates, sm.state, deepMerge sm.state proposed_updates⟩)

/-! Iteration loop, from `main_agent.generate` (lines 172-230).  The
oracle-and-tool-dependent stages are abstracted: `execPass n p` is the
outcome of the executor on pass `n` (updated plan and summary), and
`nextSteps n p` the oracle's verdict (`needs_additional_tasks`, proposed
new tasks).  Merging uses the real `mergeTasks`. -/

/-- An arbitrary behaviour of the oracle and tools across passes. -/
structure LoopEnv where
  execPass : Nat → Plan → Plan × ExecSummary
  nextSteps : Nat → Plan → Bool × Plan

/-- The pending-task count computed after merging
(`sum(1 for tasks in task_structure.values() for t in tasks if t.status == "pending")`). -/
def countPending (p : Plan) : Nat :=
  (categoryOrder.map (fun c => ((p.get c).filter (fun t => t.status = .pending)).length)).sum

/-- Embedding of the `while iteration_count < self.max_iterations` loop of
`generate`: execute a pass; stop if no task completed; ask the oracle,
stop if no additional tasks are needed; merge, stop if nothing is pending;
otherwise increment the iteration counter and loop.  Returns the number of
executing passes performed and the final plan. -/
def iterLoop (env : LoopEnv) (maxIter : Nat) (ic : Nat) (p : Plan) : Nat × Plan :=
  if _h : ic < maxIter then
    let e := env.execPass ic p
    if e.2.completed_count = 0 then (1, e.1)
    else
      let ns := env.nextSteps ic e.1
      if !ns.1 then (1, e.1)
      else
        let merged := mergeTasks e.1 ns.2
        if countPending merged = 0 then (1, merged)
        else
          let r := iterLoop env maxIter (ic + 1) merged
          (r.1 + 1, r.2)
  else (0, p)
termination_by maxIter - ic

/-! Tool registry, from `tools_resgistry.py`: `TOOL_REGISTRY` (lines
25-56), `execute_tool_by_name` (62-113) and `_validate_task_routing`
(116-159).  Individual tools are external collaborators: each registered
name is bound to an abstract behaviour `Value → Except String Value`
(`.error` models a raised exception), `none` modelling a failed import
(`globals().get(...)` yielding `None`). -/

/-- The keys of `TOOL_REGISTRY`, in source order. -/
def TOOL_REGISTRY_KEYS : List String :=
  ["search_flights_tool", "get_flight_offers_tool", "check_flight_availability_tool",
   "get_nearest_airports_tool", "confirm_flight_pricing_tool",
   "search_hotels_tool", "get_hotel_details_tool",
   "get_live_train_status_tool", "search_trains_tool", "get_trains_by_station_tool",
   "check_seat_availability_tool", "get_train_schedule_tool", "get_train_fare_tool",
   "get_geocode", "find_places_tool", "get_place_details_tool", "get_route_tool",
   "optimize_day_trip_tool", "get_weather_forecast_tool",
   "search_tool", "url_context_tool", "map_tool"]

/-- One abstract assignment of behaviours to registered names. -/
def ToolImpls := String → Option (List (String × Value) → Except String Value)

/-- `TOOL_REGISTRY.get(name)`: a binding exists only for registered keys
whose import produced a live function. -/
def registryGet (impl : ToolImpls) (name : String) :
    Option (List (String × Value) → Except String Value) :=
  if TOOL_REGISTRY_KEYS.contains name then impl name else none

/-- The three flight tools named by `_validate_task_routing`. -/
def flight_tools : List String :=
  ["confirm_flight_pricing_tool", "search_flights_tool", "get_flight_offers_tool"]

/-- Hotel-domain parameter names rejected by flight tools. -/
def hotel_params : List String := ["hotel_id", "check_in_date", "check_out_date", "city"]

/-- The two hotel tools named by `_validate_task_routing`. -/
def hotel_tools : List String := ["get_hotel_details_tool", "search_hotels_tool"]

/-- Flight-domain parameter names rejected by hotel tools. -/
def flight_params : List String :=
  ["flight_offer", "flight_offer_id", "origin", "destination", "departure_date"]

/-- Embedding of `_validate_task_routing`: `some` of a routing-error dict
when the name/parameter combination is rejected, `none` when valid. -/
def validateTaskRouting (name : String) (params : List (String × Value)) :
    Option Value :=
  let provided := params.map Prod.fst
  let hotelFound := hotel_params.filter (fun p => provided.contains p)
  let flightFound := flight_params.filter (fun p => provided.contains p)
  if flight_tools.contains name && !hotelFound.isEmpty then
    some (.dict
      [("error", .str ("Task routing error: " ++ name ++ " received hotel parameters")),
       ("details", .str "This is a flight tool."),
       ("provided_params", .list (provided.map .str)),
       ("expected_params", .dict [])])
  else if hotel_tools.contains name && !flightFound.isEmpty
      && !provided.contains "hotel_id" && !provided.contains "city" then
    some (.dict
      [("error", .str ("Task routing error: " ++ name ++ " received flight parameters")),
       ("details", .str "This is a hotel tool."),
       ("provided_params", .list (provided.map .str)),
       ("expected_params", .dict [])])
  else none

/-- Embedding of `execute_tool_by_name`: look up the name (falling back to
`name ++ "_tool"`), report unknown names with the available list, apply
routing validation, then invoke the tool; a raised exception (including a
parameter-binding `TypeError`) becomes an error dict.  The second
component counts tool invocations made. -/
def execute_tool_by_name (impl : ToolImpls) (name : String)
    (params : List (String × Value)) : Value × Nat :=
  match (registryGet impl name).orElse (fun _ => registryGet impl (name ++ "_tool")) with
  | none =>
      (.dict [("error", .str ("Function " ++ name ++ " not found.")),
              ("available_functions",
               .list ((TOOL_REGISTRY_KEYS.filter
                 (fun k => (registryGet impl k).isSome)).map .str))], 0)
  | some func =>
      match validateTaskRouting name params with
      | some routingError => (routingError, 0)
      | none =>
          match func params with
          | .ok result => (result, 1)
          | .error e =>
              (.dict [("error", .str ("Error executing " ++ name)),
                      ("details", .str e),
                      ("provided_params", .list ((params.map Prod.fst).map .str))], 1)

/-! Heap model for the aliasing contract of `StateManager.get_state`
(`return copy.deepcopy(self.state)`).  Python objects live in a heap of
numbered cells; `deepcopy` reads the stored structure and rebuilds it
entirely at fresh addresses, so that no write through the returned
reference can alter the store. -/

/-- One heap cell: a scalar, or a container holding references. -/
inductive HVal where
  | hnull : HVal
  | hbool (b : Bool) : HVal
  | hint (n : Int) : HVal
  | hstr (s : String) : HVal
  | harr (elems : List Nat) : HVal
  | hobj (fields : List (String × Nat)) : HVal
deriving DecidableEq, Repr

/-- The references held by a cell. -/
def childRefs : HVal → List Nat
  | .harr es => es
  | .hobj fs => fs.map Prod.snd
  | _ => []

/-- A heap: allocated cells and the next fresh address. -/
structure Heap where
  mem : List (Nat × HVal)
  next : Nat
deriving Repr

/-- Dereference an address. -/
def lookupH (h : Heap) (a : Nat) : Option HVal :=
  (h.mem.find? (fun p => p.1 = a)).map Prod.snd

/-- Well-formed heap: every allocated address and every reference it holds
lies below the allocation frontier. -/
def wfHeap (h : Heap) : Prop :=
  ∀ p ∈ h.mem, p.1 < h.next ∧ ∀ r ∈ childRefs p.2, r < h.next

/-- Allocate a fresh cell. -/
def alloc (h : Heap) (v : HVal) : Heap × Nat :=
  (⟨h.mem ++ [(h.next, v)], h.next + 1⟩, h.next)

/-- Overwrite the cell at an address (mutation through a reference). -/
def writeH (h : Heap) (a : Nat) (v : HVal) : Heap :=
  ⟨h.mem.map (fun p => if p.1 = a then (a, v) else p), h.next⟩

mutual

/-- Read the value tree rooted at an address (fuel-bounded). -/
def renderA : Nat → Heap → Nat → Option Value
  | 0, _, _ => none
  | fuel + 1, h, a =>
      match lookupH h a with
      | none => none
      | some .hnull => some .null
      | some (.hbool b) => some (.bool b)
      | some (.hint n) => some (.int n)
      | some (.hstr s) => some (.str s)
      | some (.harr es) => (renderL fuel h es).map .list
      | some (.hobj fs) => (renderF fuel h fs).map .dict
termination_by fuel _ _ => (fuel, 0)

/-- Read a list of elements. -/
def renderL : Nat → Heap → List Nat → Option (List Value)
  | _, _, [] => some []
  | fuel, h, a :: rest =>
      match renderA fuel h a with
      | none => none
      | some v =>
          match renderL fuel h rest with
          | none => none
          | some vs => some (v :: vs)
termination_by fuel _ es => (fuel, es.length + 1)

/-- Read a list of fields. -/
def renderF : Nat → Heap → List (String × Nat) → Option (List (String × Value))
  | _, _, [] => some []
  | fuel, h, (k, a) :: rest =>
      match renderA fuel h a with
      | none => none
      | some v =>
          match renderF fuel h rest with
          | none => none
          | some vs => some ((k, v) :: vs)
termination_by fuel _ fs => (fuel, fs.length + 1)

end

mutual

/-- Rebuild a value tree at fresh addresses (the writing half of
`copy.deepcopy`): allocate the children, then the node. -/
def allocVal (h : Heap) : Value → Heap × Nat
  | .null => alloc h .hnull
  | .bool b => alloc h (.hbool b)
  | .int n => alloc h (.hint n)
  | .str s => alloc h (.hstr s)
  | .list xs =>
      let r := allocList h xs
      alloc r.1 (.harr r.2)
  | .dict kvs =>
      let r := allocFields h kvs
      alloc r.1 (.hobj r.2)

/-- Allocate list elements left to right. -/
def allocList (h : Heap) : List Value → Heap × List Nat
  | [] => (h, [])
  | v :: rest =>
      let r := allocVal h v
      let rs := allocList r.1 rest
      (rs.1, r.2 :: rs.2)

/-- Allocate field values left to right. -/
def allocFields (h : Heap) : List (String × Value) → Heap × List (String × Nat)
  | [] => (h, [])
  | (k, v) :: rest =>
      let r := allocVal h v
      let rs := allocFields r.1 rest
      (rs.1, (k, r.2) :: rs.2)

end

/-- Embedding of `get_state` at the heap level: read the stored state and
rebuild it at fresh addresses, returning the extended heap and the address
handed to the caller. -/
def getStateHeap (h : Heap) (root : Nat) (fuel : Nat) : Option (Heap × Nat) :=
  (renderA fuel h root).map (allocVal h)

/-- Reachability through heap references. -/
inductive Reach (h : Heap) : Nat → Nat → Prop where
  | refl (a : Nat) : Reach h a a
  | step {a b c : Nat} {v : HVal} : Reach h a b → lookupH h b = some v →
      c ∈ childRefs v → Reach h a c

/-! Lemmas about the per-task routine. -/

theorem retryLoop_ok {f : Nat → Except String Value} {c : Nat} {r : Value}
    (key : String) (cache : Cache) (t : Task)
    (h1 : t.retry_count < t.max_retries) (h2 : f c = .ok r)
    (h3 : isErrorDict r = false) :
    retryLoop f key c cache t =
      (t.upd (fun fs => { fs with response := r, status := .completed }),
       dictSet cache key r, ⟨[.completed], 1⟩) := by
  have h1f : t.f.retry_count < t.f.max_retries := h1
  rw [retryLoop]
  simp [h1f, h2, h3, Task.upd]

theorem retryLoop_errdict {f : Nat → Except String Value} {c : Nat} {r : Value}
    (key : String) (cache : Cache) (t : Task)
    (h1 : t.retry_count < t.max_retries) (h2 : f c = .ok r)
    (h3 : isErrorDict r = true) :
    retryLoop f key c cache t =
      (t.upd (fun fs => { fs with error := some (errValue r), status := .failed }),
       cache, ⟨[.failed], 1⟩) := by
  have h1f : t.f.retry_count < t.f.max_retries := h1
  rw [retryLoop]
  simp [h1f, h2, h3, Task.upd]

theorem retryLoop_raise_last {f : Nat → Except String Value} {c : Nat} {e : String}
    (key : String) (cache : Cache) (t : Task)
    (h1 : t.retry_count + 1 = t.max_retries) (h2 : f c = .error e) :
    retryLoop f key c cache t =
      ((t.upd (fun fs => { fs with retry_count := fs.retry_count + 1,
                                   error := some (.str e) })).upd
         (fun fs => { fs with status := .failed }),
       cache, ⟨[.failed], 1⟩) := by
  have h1f : t.f.retry_count + 1 = t.f.max_retries := h1
  rw [retryLoop]
  simp [show t.f.retry_count < t.f.max_retries by omega, h2, Task.upd,
        show t.f.max_retries ≤ t.f.retry_count + 1 by omega]

theorem retryLoop_raise_step {f : Nat → Except String Value} {c : Nat} {e : String}
    (key : String) (cache : Cache) (t : Task)
    (h1 : t.retry_count + 1 < t.max_retries) (h2 : f c = .error e) :
    retryLoop f key c cache t =
      (let r := retryLoop f key (c + 1) cache
        (t.upd (fun fs => { fs with retry_count := fs.retry_count + 1,
                                    error := some (.str e) }))
       (r.1, r.2.1, ⟨r.2.2.statusWrites, r.2.2.registryCalls + 1⟩)) := by
  have h1f : t.f.retry_count + 1 < t.f.max_retries := h1
  rw [retryLoop]
  simp [show t.f.retry_count < t.f.max_retries by omega, h2, Task.upd,
        show ¬(t.f.max_retries ≤ t.f.retry_count + 1) by omega]

/-- After `k` raised attempts followed by a clean success, the retry loop
completes the task with `retry_count` advanced by `k` and `k + 1` registry
calls, caching the response. -/
theorem retryLoop_success_after {f : Nat → Except String Value} {r : Value}
    (key : String) (k : Nat) :
    ∀ (c : Nat) (cache : Cache) (t : Task),
    t.retry_count + k < t.max_retries →
    (∀ i, i < k → ∃ e, f (c + i) = .error e) →
    f (c + k) = .ok r → isErrorDict r = false →
    (retryLoop f key c cache t).1.status = .completed ∧
    (retryLoop f key c cache t).1.retry_count = t.retry_count + k ∧
    (retryLoop f key c cache t).1.response = r ∧
    (retryLoop f key c cache t).1.task_id = t.task_id ∧
    (retryLoop f key c cache t).2.1 = dictSet cache key r ∧
    (retryLoop f key c cache t).2.2 = ⟨[.completed], k + 1⟩ := by
  induction k with
  | zero =>
      intro c cache t hlt _ hok herr
      have hok2 : f c = .ok r := by simpa using hok
      rw [retryLoop_ok key cache t (by omega) hok2 herr]
      simp [Task.upd]
  | succ k ih =>
      intro c cache t hlt hraise hok herr
      have hltf : t.f.retry_count + (k + 1) < t.f.max_retries := hlt
      obtain ⟨e, he⟩ := hraise 0 (Nat.succ_pos k)
      have he2 : f c = .error e := by simpa using he
      rw [retryLoop_raise_step key cache t (by omega) he2]
      have hr := ih (c + 1) cache
        (t.upd (fun fs => { fs with retry_count := fs.retry_count + 1,
                                    error := some (.str e) }))
        (by simp [Task.upd]; omega)
        (fun i hi => by
          obtain ⟨e3, he3⟩ := hraise (i + 1) (by omega)
          exact ⟨e3, by simpa [Nat.add_assoc, Nat.add_comm 1 i] using he3⟩)
        (by simpa [Nat.add_assoc, Nat.add_comm 1 k] using hok) herr
      simp only at hr ⊢
      refine ⟨hr.1, ?_, hr.2.2.1, ?_, hr.2.2.2.2.1, ?_⟩
      · rw [hr.2.1]; simp [Task.upd]; omega
      · rw [hr.2.2.2.1]; simp [Task.upd]
      · rw [hr.2.2.2.2.2]

/-- When every attempt raises, the loop runs exactly
`max_retries - retry_count` registry calls and marks the task failed with
the last error, leaving the cache unchanged. -/
theorem retryLoop_all_raise {f : Nat → Except String Value} (key : String) (j : Nat) :
    ∀ (c : Nat) (cache : Cache) (t : Task),
    t.retry_count + j = t.max_retries → 0 < j →
    (∀ i, i < j → ∃ e, f (c + i) = .error e) →
    (retryLoop f key c cache t).1.status = .failed ∧
    (retryLoop f key c cache t).1.retry_count = t.max_retries ∧
    (retryLoop f key c cache t).1.task_id = t.task_id ∧
    (∀ e, f (c + (j - 1)) = .error e →
      (retryLoop f key c cache t).1.error = some (.str e)) ∧
    (retryLoop f key c cache t).2.1 = cache ∧
    (retryLoop f key c cache t).2.2 = ⟨[.failed], j⟩ := by
  induction j with
  | zero => intro _ _ _ _ h0; omega
  | succ j ih =>
      intro c cache t heq _ hraise
      have heqf : t.f.retry_count + (j + 1) = t.f.max_retries := heq
      obtain ⟨e, he⟩ := hraise 0 (Nat.succ_pos j)
      have he2 : f c = .error e := by simpa using he
      rcases Nat.eq_zero_or_pos j with hj | hj
      · subst hj
        rw [retryLoop_raise_last key cache t (by omega) he2]
        refine ⟨by simp [Task.upd], by simp [Task.upd]; omega, by simp [Task.upd], ?_, rfl, rfl⟩
        intro e3 he3
        have he3c : f c = .error e3 := by simpa using he3
        have : e3 = e := by
          rw [he3c] at he2
          exact Except.error.inj he2
        simp [Task.upd, this]
      · rw [retryLoop_raise_step key cache t (by omega) he2]
        have hr := ih (c + 1) cache
          (t.upd (fun fs => { fs with retry_count := fs.retry_count + 1,
                                      error := some (.str e) }))
          (by simp [Task.upd]; omega) hj
          (fun i hi => by
            obtain ⟨e3, he3⟩ := hraise (i + 1) (by omega)
            exact ⟨e3, by simpa [Nat.add_assoc, Nat.add_comm 1 i] using he3⟩)
        have hidx2 : c + 1 + (j - 1) = c + j := by omega
        simp only [Task.upd, Task.f_mk, hidx2] at hr
        simp only [Task.upd, Task.f_mk]
        simp only [Task.retry_count, Task.max_retries, Task.task_id, Task.status,
                   Task.error, Task.f_mk] at hr ⊢
        simp only [Nat.add_sub_cancel]
        refine ⟨hr.1, ?_, ?_, ?_, hr.2.2.2.2.1, ?_⟩
        · simpa using hr.2.1
        · simpa using hr.2.2.1
        · intro e3 he3
          exact hr.2.2.2.1 e3 he3
        · simp [hr.2.2.2.2.2]

/-- Cache-miss unfolding of the per-task routine. -/
theorem executeSingleTask_miss {f : Nat → Except String Value} {dur : Nat}
    {cache : Cache} {t0 : Task}
    (h : pyGet cache ("task_" ++ t0.task_id) = Value.null) :
    executeSingleTask f dur cache t0 =
      (let r := retryLoop f ("task_" ++ t0.task_id) 0 cache
         (t0.upd (fun fs => { fs with status := .in_progress }))
       (r.1.upd (fun fs => { fs with execution_time := some dur }), r.2.1,
        ⟨.in_progress :: r.2.2.statusWrites, r.2.2.registryCalls⟩)) := by
  unfold executeSingleTask
  simp only [Task.task_id] at h
  rw [if_neg]
  · rfl
  · simp [Task.upd, h]

/-- Cache-hit unfolding of the per-task routine. -/
theorem executeSingleTask_hit {f : Nat → Except String Value} {dur : Nat}
    {cache : Cache} {t0 : Task} {v : Value}
    (h : pyGet cache ("task_" ++ t0.task_id) = v) (hv : v ≠ Value.null) :
    executeSingleTask f dur cache t0 =
      (t0.upd (fun fs => { fs with response := v, status := .completed,
                                   cached := true, execution_time := some dur }),
       cache, ⟨[.in_progress, .completed], 0⟩) := by
  unfold executeSingleTask
  simp only [Task.task_id] at h
  rw [if_pos]
  · simp [Task.upd, h]
  · simp [Task.upd, h, hv]

/-- C1: for a task with no cache entry, an error-carrying result from the
tool marks the task failed immediately with `retry_count` still 0 and a
single registry call; a raised exception increments `retry_count` and is
retried while `retry_count < max_retries`; after `k` raises followed by a
success the task is completed with `retry_count = k`; when every attempt
raises, the task is failed with `retry_count = max_retries` and the last
error recorded. -/
theorem C1_domain_error_vs_transport_retry
    (f : Nat → Except String Value) (dur : Nat) (cache : Cache) (t : Task)
    (hmiss : pyGet cache ("task_" ++ t.task_id) = Value.null)
    (hrc : t.retry_count = 0) :
    (∀ r, f 0 = .ok r → isErrorDict r = true → 0 < t.max_retries →
       (executeSingleTask f dur cache t).1.status = .failed ∧
       (executeSingleTask f dur cache t).1.retry_count = 0 ∧
       (executeSingleTask f dur cache t).2.2.registryCalls = 1) ∧
    (∀ k r, k < t.max_retries → (∀ i, i < k → ∃ e, f i = .error e) →
       f k = .ok r → isErrorDict r = false →
       (executeSingleTask f dur cache t).1.status = .completed ∧
       (executeSingleTask f dur cache t).1.retry_count = k ∧
       (executeSingleTask f dur cache t).1.response = r ∧
       (executeSingleTask f dur cache t).2.2.registryCalls = k + 1) ∧
    (0 < t.max_retries → (∀ i, i < t.max_retries → ∃ e, f i = .error e) →
       (executeSingleTask f dur cache t).1.status = .failed ∧
       (executeSingleTask f dur cache t).1.retry_count = t.max_retries ∧
       (∀ e, f (t.max_retries - 1) = .error e →
          (executeSingleTask f dur cache t).1.error = some (.str e))) := by
  rw [executeSingleTask_miss hmiss]
  have hrcf : t.f.retry_count = 0 := hrc
  have hrcu : (t.upd (fun fs => { fs with status := .in_progress })).retry_count = 0 := by
    simp [Task.upd, hrcf]
  have hmru : (t.upd (fun fs => { fs with status := .in_progress })).max_retries
      = t.max_retries := by
    simp [Task.upd]
  refine ⟨?_, ?_, ?_⟩
  · intro r hok herr hpos
    have h := retryLoop_errdict ("task_" ++ t.task_id) cache
      (t.upd (fun fs => { fs with status := .in_progress }))
      (by rw [hrcu, hmru]; exact hpos) hok herr
    rw [h]
    simp [Task.upd, hrcf]
  · intro k r hk hraise hok herr
    have h := retryLoop_success_after ("task_" ++ t.task_id) k 0 cache
      (t.upd (fun fs => { fs with status := .in_progress }))
      (by rw [hrcu, hmru]; omega)
      (fun i hi => by simpa using hraise i hi)
      (by simpa using hok) herr
    rw [hrcu] at h
    simp only at h ⊢
    refine ⟨?_, ?_, ?_, ?_⟩
    · simp only [Task.status_updExec]
      exact h.1
    · simp only [Task.retry_count_updExec]
      rw [h.2.1]
      omega
    · simp only [Task.response_updExec]
      exact h.2.2.1
    · have h5 := h.2.2.2.2.2
      simp only [Task.task_id] at h5 ⊢
      simp [h5]
  · intro hpos hraise
    have h := retryLoop_all_raise ("task_" ++ t.task_id) t.max_retries 0 cache
      (t.upd (fun fs => { fs with status := .in_progress }))
      (by rw [hrcu, hmru]; omega) (by omega)
      (fun i hi => by simpa using hraise i hi)
    rw [hmru] at h
    simp only at h ⊢
    refine ⟨?_, ?_, ?_⟩
    · simp only [Task.status_updExec]
      exact h.1
    · simp only [Task.retry_count_updExec]
      exact h.2.1
    · intro e he
      simp only [Task.error_updExec]
      exact h.2.2.2.1 e (by simpa using he)

/-- Concrete task used by witnesses: default `max_retries = 3`. -/
def tWitness : Task :=
  .mk { task_name := "flight search", function := "search_flights_tool",
        request := .dict [], task_id := "T1" }

/-- Tool behaviour raising on the first two attempts, then succeeding. -/
def fRaiseTwice : Nat → Except String Value
  | 0 => .error "boom0"
  | 1 => .error "boom1"
  | _ => .ok (.dict [("data", .str "ok")])

/-- Witness for C1: with `max_retries = 3`, raising twice then succeeding
leaves the task completed with `retry_count = 2` after three registry
calls. -/
theorem C1_domain_error_vs_transport_retry_witness :
    (executeSingleTask fRaiseTwice 7 [] tWitness).1.status = .completed ∧
    (executeSingleTask fRaiseTwice 7 [] tWitness).1.retry_count = 2 ∧
    (executeSingleTask fRaiseTwice 7 [] tWitness).2.2.registryCalls = 3 := by
  have h := (C1_domain_error_vs_transport_retry fRaiseTwice 7 [] tWitness rfl rfl).2.1
    2 (.dict [("data", .str "ok")]) (by decide)
    (fun i hi => by
      match i, hi with
      | 0, _ => exact ⟨"boom0", rfl⟩
      | 1, _ => exact ⟨"boom1", rfl⟩)
    rfl rfl
  exact ⟨h.1, h.2.1, h.2.2.2⟩

/-- Tool behaviour that always succeeds with a data payload. -/
def fOkData : Nat → Except String Value :=
  fun _ => .ok (.dict [("data", .str "ok")])

/-- C4 counterexample: the run-scoped cache holds an entry for the task
(a prior successful response that was Python `None`), yet the routine does
not short-circuit — `cached` stays false and the registry is called once,
because `task_cache.get` cannot distinguish a stored `None` from an absent
entry. -/
theorem C4_cache_entry_counterexample :
    (dictFind [("task_T1", Value.null)] ("task_" ++ tWitness.task_id)).isSome = true ∧
    (executeSingleTask fOkData 5 [("task_T1", Value.null)] tWitness).1.cached = false ∧
    (executeSingleTask fOkData 5 [("task_T1", Value.null)] tWitness).2.2.registryCalls = 1 := by
  have hmiss : pyGet [("task_T1", Value.null)] ("task_" ++ tWitness.task_id)
      = Value.null := rfl
  rw [executeSingleTask_miss hmiss]
  rw [@retryLoop_ok fOkData 0 (.dict [("data", .str "ok")])
    ("task_" ++ tWitness.task_id) [("task_T1", Value.null)]
    (tWitness.upd (fun fs => { fs with status := .in_progress }))
    (by decide) rfl (by decide)]
  exact ⟨rfl, by simp [Task.upd, tWitness], rfl⟩

/-- C4 amended: for every pending task whose `task_id` has a non-null
entry in the run-scoped cache, the routine short-circuits: completed,
`cached = true`, response equal to the cached response, execution time
recorded, no registry call, cache unchanged.  (A cache entry equal to
Python `None` does not short-circuit, since `dict.get` conflates it with
an absent entry.) -/
theorem C4_cache_short_circuit (f : Nat → Except String Value) (dur : Nat)
    (cache : Cache) (t : Task) (v : Value)
    (hfind : dictFind cache ("task_" ++ t.task_id) = some v)
    (hnn : v ≠ Value.null) :
    (executeSingleTask f dur cache t).1.status = .completed ∧
    (executeSingleTask f dur cache t).1.cached = true ∧
    (executeSingleTask f dur cache t).1.response = v ∧
    (executeSingleTask f dur cache t).1.execution_time = some dur ∧
    (executeSingleTask f dur cache t).2.2.registryCalls = 0 ∧
    (executeSingleTask f dur cache t).2.1 = cache := by
  have hget : pyGet cache ("task_" ++ t.task_id) = v := by
    unfold pyGet
    rw [hfind]
    rfl
  rw [executeSingleTask_hit hget hnn]
  simp [Task.upd]

/-- Witness for the amended C4: a concrete cache with a non-null entry
short-circuits without a registry call. -/
theorem C4_cache_short_circuit_witness :
    (executeSingleTask fOkData 5 [("task_T1", Value.str "resp")] tWitness).1.status
      = .completed ∧
    (executeSingleTask fOkData 5 [("task_T1", Value.str "resp")] tWitness).1.cached
      = true ∧
    (executeSingleTask fOkData 5 [("task_T1", Value.str "resp")] tWitness).1.response
      = .str "resp" ∧
    (executeSingleTask fOkData 5 [("task_T1", Value.str "resp")] tWitness).2.2.registryCalls
      = 0 := by
  have h := C4_cache_short_circuit fOkData 5 [("task_T1", Value.str "resp")] tWitness
    (.str "resp") rfl (by decide)
  exact ⟨h.1, h.2.1, h.2.2.1, h.2.2.2.2.1⟩

/-- Stop unfolding of the iteration loop. -/
theorem iterLoop_stop (env : LoopEnv) {m ic : Nat} (p : Plan) (h : ¬ic < m) :
    iterLoop env m ic p = (0, p) := by
  rw [iterLoop]
  simp [h]

/-- Step unfolding of the iteration loop. -/
theorem iterLoop_step (env : LoopEnv) {m ic : Nat} (p : Plan) (h : ic < m) :
    iterLoop env m ic p =
      (let e := env.execPass ic p
       if e.2.completed_count = 0 then (1, e.1)
       else
         let ns := env.nextSteps ic e.1
         if !ns.1 then (1, e.1)
         else
           let merged := mergeTasks e.1 ns.2
           if countPending merged = 0 then (1, merged)
           else
             let r := iterLoop env m (ic + 1) merged
             (r.1 + 1, r.2)) := by
  rw [iterLoop]
  simp [h]

/-- The executing-pass count of the loop is bounded by the remaining
iteration budget. -/
theorem iterLoop_pass_bound (env : LoopEnv) :
    ∀ (k m ic : Nat) (p : Plan), m - ic ≤ k → (iterLoop env m ic p).1 ≤ m - ic := by
  intro k
  induction k with
  | zero =>
      intro m ic p hk
      have : ¬ic < m := by omega
      rw [iterLoop_stop env p this]
      simp
  | succ k ih =>
      intro m ic p hk
      by_cases h : ic < m
      · rw [iterLoop_step env p h]
        simp only
        split
        · simp; omega
        · split
          · simp; omega
          · split
            · simp; omega
            · have := ih m (ic + 1) (mergeTasks (env.execPass ic p).1
                (env.nextSteps ic (env.execPass ic p).1).2) (by omega)
              simp only
              omega
      · rw [iterLoop_stop env p h]
        simp

/-- C2: for every oracle/tool behaviour the loop performs at most
`max_iterations` executing passes (at most 3 from the initial state with
the default cap), and a pass is the last one whenever it completes zero
tasks, whenever the oracle reports that no additional tasks are needed, or
whenever no pending task remains after merging the proposed tasks. -/
theorem C2_iteration_loop_terminates (env : LoopEnv) (p : Plan) :
    (iterLoop env 3 0 p).1 ≤ 3 ∧
    (∀ m ic q, (iterLoop env m ic q).1 ≤ m - ic) ∧
    (∀ m ic q, ic < m →
      ((env.execPass ic q).2.completed_count = 0 → (iterLoop env m ic q).1 = 1) ∧
      ((env.execPass ic q).2.completed_count ≠ 0 →
        (env.nextSteps ic (env.execPass ic q).1).1 = false →
        (iterLoop env m ic q).1 = 1) ∧
      ((env.execPass ic q).2.completed_count ≠ 0 →
        (env.nextSteps ic (env.execPass ic q).1).1 = true →
        countPending (mergeTasks (env.execPass ic q).1
          (env.nextSteps ic (env.execPass ic q).1).2) = 0 →
        (iterLoop env m ic q).1 = 1)) := by
  refine ⟨?_, ?_, ?_⟩
  · have := iterLoop_pass_bound env 3 3 0 p (by omega)
    omega
  · intro m ic q
    exact iterLoop_pass_bound env (m - ic) m ic q le_rfl
  · intro m ic q h
    refine ⟨?_, ?_, ?_⟩
    · intro hz
      rw [iterLoop_step env q h]
      simp [hz]
    · intro hnz hfalse
      rw [iterLoop_step env q h]
      simp [hnz, hfalse]
    · intro hnz htrue hpend
      rw [iterLoop_step env q h]
      simp [hnz, htrue, hpend]

/-- A plan with all four categories empty. -/
def emptyPlan : Plan := ⟨[], [], [], []⟩

/-- An oracle/tool behaviour whose executing pass completes zero tasks. -/
def envStall : LoopEnv :=
  ⟨fun _ q => (q, ⟨0, 0, 0, 0⟩), fun _ _ => (false, emptyPlan)⟩

/-- Witness for C2: under a stalling behaviour the loop performs exactly
one executing pass, and the cap bound holds. -/
theorem C2_iteration_loop_terminates_witness :
    (iterLoop envStall 3 0 emptyPlan).1 = 1 ∧
    (iterLoop envStall 3 0 emptyPlan).1 ≤ 3 := by
  have h := C2_iteration_loop_terminates envStall emptyPlan
  exact ⟨((h.2.2 3 0 emptyPlan (by omega)).1) rfl, h.1⟩

/-- Every routing-error payload carries an `error` key. -/
theorem validateTaskRouting_isErrorDict {name : String}
    {params : List (String × Value)} {err : Value}
    (h : validateTaskRouting name params = some err) : isErrorDict err = true := by
  simp only [validateTaskRouting] at h
  split at h
  · cases h
    simp [isErrorDict, hasKey, dictFind]
  · split at h
    · cases h
      simp [isErrorDict, hasKey, dictFind]
    · cases h

/-- C10: `execute_tool_by_name` always returns normally: the result is
either the value returned by the successfully invoked tool, or a mapping
carrying an `error` key (unknown name, routing violation, or an exception
raised by the call — including parameter-binding failures); in particular
a raised tool exception is reported as an error mapping. -/
theorem C10_execute_tool_never_raises (impl : ToolImpls) (name : String)
    (params : List (String × Value)) :
    ((∃ fn, (registryGet impl name).orElse
        (fun _ => registryGet impl (name ++ "_tool")) = some fn ∧
      validateTaskRouting name params = none ∧
      fn params = .ok (execute_tool_by_name impl name params).1 ∧
      (execute_tool_by_name impl name params).2 = 1) ∨
     isErrorDict (execute_tool_by_name impl name params).1 = true) ∧
    (∀ fn e, (registryGet impl name).orElse
        (fun _ => registryGet impl (name ++ "_tool")) = some fn →
      validateTaskRouting name params = none → fn params = .error e →
      isErrorDict (execute_tool_by_name impl name params).1 = true) := by
  constructor
  · unfold execute_tool_by_name
    cases hL : (registryGet impl name).orElse
        (fun _ => registryGet impl (name ++ "_tool")) with
    | none =>
        right
        simp [isErrorDict, hasKey, dictFind]
    | some fn =>
        cases hV : validateTaskRouting name params with
        | some err =>
            right
            simp [validateTaskRouting_isErrorDict hV]
        | none =>
            cases hc : fn params with
            | ok v =>
                left
                refine ⟨fn, rfl, rfl, ?_, ?_⟩
                · simp [hc]
                · simp [hc]
            | error e =>
                right
                simp [hc, isErrorDict, hasKey, dictFind]
  · intro fn e hL hV hc
    unfold execute_tool_by_name
    simp [hL, hV, hc, isErrorDict, hasKey, dictFind]

/-- Registry behaviour where only `map_tool` is live and raises. -/
def implRaiseMap : ToolImpls :=
  fun k => if k = "map_tool" then some (fun _ => .error "boom") else none

/-- Witness for C10: a raising tool call surfaces as an error mapping. -/
theorem C10_execute_tool_never_raises_witness :
    isErrorDict (execute_tool_by_name implRaiseMap "map_tool" []).1 = true := by
  exact (C10_execute_tool_never_raises implRaiseMap "map_tool" []).2
    (fun _ => .error "boom") "boom" rfl (by decide) rfl

/-- Hotel-shaped parameters: the exact set named by the validator. -/
def hotelShapedParams : List (String × Value) :=
  [("hotel_id", .str "H1"), ("check_in_date", .str "2026-01-01"),
   ("check_out_date", .str "2026-01-05"), ("city", .str "PAR")]

/-- Registry behaviour where every registered tool returns a fixed
payload. -/
def implAllOk : ToolImpls :=
  fun _ => some (fun _ => .ok (.str "nearest-airports-data"))

/-- C9 counterexample: `get_nearest_airports_tool` is a registered flight
tool, yet invoked with hotel-shaped parameters it is NOT rejected by
routing validation — the tool is invoked (one call) and its payload is
returned instead of a routing-error mapping, because the validator only
covers `confirm_flight_pricing_tool`, `search_flights_tool` and
`get_flight_offers_tool`. -/
theorem C9_unvalidated_flight_tool_counterexample :
    TOOL_REGISTRY_KEYS.contains "get_nearest_airports_tool" = true ∧
    validateTaskRouting "get_nearest_airports_tool" hotelShapedParams = none ∧
    (execute_tool_by_name implAllOk "get_nearest_airports_tool" hotelShapedParams).1
      = .str "nearest-airports-data" ∧
    (execute_tool_by_name implAllOk "get_nearest_airports_tool" hotelShapedParams).2 = 1 ∧
    isErrorDict
      (execute_tool_by_name implAllOk "get_nearest_airports_tool" hotelShapedParams).1
      = false := by
  refine ⟨by decide, by decide, ?_, ?_, ?_⟩ <;> rfl

/-- C9 amended: unknown function names yield an error mapping listing the
available names without any tool call; the flight tools covered by the
validator (`confirm_flight_pricing_tool`, `search_flights_tool`,
`get_flight_offers_tool`) reject hotel-shaped parameters with a routing
error and no tool call; the hotel tools (`get_hotel_details_tool`,
`search_hotels_tool`) reject parameters carrying a flight-domain key and
neither `hotel_id` nor `city`, with a routing error and no tool call.
The two registered flight tools outside the validator
(`check_flight_availability_tool`, `get_nearest_airports_tool`) are not
routed. -/
theorem C9_routing_and_unknown_names (impl : ToolImpls) (name : String)
    (params : List (String × Value)) :
    (registryGet impl name = none → registryGet impl (name ++ "_tool") = none →
      (execute_tool_by_name impl name params).1 =
        .dict [("error", .str ("Function " ++ name ++ " not found.")),
               ("available_functions",
                .list ((TOOL_REGISTRY_KEYS.filter
                  (fun k => (registryGet impl k).isSome)).map .str))] ∧
      isErrorDict (execute_tool_by_name impl name params).1 = true ∧
      (execute_tool_by_name impl name params).2 = 0) ∧
    (flight_tools.contains name = true →
      (∃ hp, hp ∈ hotel_params ∧ (params.map Prod.fst).contains hp = true) →
      ∃ err, validateTaskRouting name params = some err ∧ isErrorDict err = true ∧
        (∀ fn, (registryGet impl name).orElse
            (fun _ => registryGet impl (name ++ "_tool")) = some fn →
          (execute_tool_by_name impl name params).1 = err ∧
          (execute_tool_by_name impl name params).2 = 0)) ∧
    (hotel_tools.contains name = true →
      (∃ fp, fp ∈ flight_params ∧ (params.map Prod.fst).contains fp = true) →
      (params.map Prod.fst).contains "hotel_id" = false →
      (params.map Prod.fst).contains "city" = false →
      ∃ err, validateTaskRouting name params = some err ∧ isErrorDict err = true ∧
        (∀ fn, (registryGet impl name).orElse
            (fun _ => registryGet impl (name ++ "_tool")) = some fn →
          (execute_tool_by_name impl name params).1 = err ∧
          (execute_tool_by_name impl name params).2 = 0)) := by
  refine ⟨?_, ?_, ?_⟩
  · intro h1 h2
    unfold execute_tool_by_name
    rw [h1, h2]
    exact ⟨rfl, by simp [isErrorDict, hasKey, dictFind], rfl⟩
  · intro hmem hfound
    obtain ⟨hp, hpmem, hpcon⟩ := hfound
    have hne : (hotel_params.filter
        (fun p => (params.map Prod.fst).contains p)).isEmpty = false := by
      rcases hE : (hotel_params.filter
          (fun p => (params.map Prod.fst).contains p)).isEmpty with _ | _
      · rfl
      · exfalso
        have : hp ∈ hotel_params.filter (fun p => (params.map Prod.fst).contains p) :=
          List.mem_filter.mpr ⟨hpmem, hpcon⟩
        rw [List.isEmpty_iff.mp hE] at this
        exact absurd this (List.not_mem_nil hp)
    have hc1 : (flight_tools.contains name &&
        !(hotel_params.filter (fun p => (params.map Prod.fst).contains p)).isEmpty)
        = true := by
      rw [hmem, hne]
      rfl
    have hval : validateTaskRouting name params = some (.dict
        [("error", .str ("Task routing error: " ++ name ++ " received hotel parameters")),
         ("details", .str "This is a flight tool."),
         ("provided_params", .list ((params.map Prod.fst).map .str)),
         ("expected_params", .dict [])]) := by
      simp only [validateTaskRouting, hc1]
      simp
    refine ⟨_, hval, by simp [isErrorDict, hasKey, dictFind], ?_⟩
    intro fn hfn
    unfold execute_tool_by_name
    rw [hfn, hval]
    exact ⟨rfl, rfl⟩
  · intro hmem hfound hnoh hnoc
    obtain ⟨fp, fpmem, fpcon⟩ := hfound
    have hne : (flight_params.filter
        (fun p => (params.map Prod.fst).contains p)).isEmpty = false := by
      rcases hE : (flight_params.filter
          (fun p => (params.map Prod.fst).contains p)).isEmpty with _ | _
      · rfl
      · exfalso
        have : fp ∈ flight_params.filter (fun p => (params.map Prod.fst).contains p) :=
          List.mem_filter.mpr ⟨fpmem, fpcon⟩
        rw [List.isEmpty_iff.mp hE] at this
        exact absurd this (List.not_mem_nil fp)
    have hnf : flight_tools.contains name = false := by
      have hm : name ∈ hotel_tools := by
        simpa [List.contains_iff_exists_mem_beq] using hmem
      fin_cases hm <;> decide
    have hc1 : (flight_tools.contains name &&
        !(hotel_params.filter (fun p => (params.map Prod.fst).contains p)).isEmpty)
        = false := by
      rw [hnf]
      rfl
    have hc2 : (hotel_tools.contains name &&
        !(flight_params.filter (fun p => (params.map Prod.fst).contains p)).isEmpty &&
        !(params.map Prod.fst).contains "hotel_id" &&
        !(params.map Prod.fst).contains "city") = true := by
      rw [hmem, hne, hnoh, hnoc]
      rfl
    have hval : validateTaskRouting name params = some (.dict
        [("error", .str ("Task routing error: " ++ name ++ " received flight parameters")),
         ("details", .str "This is a hotel tool."),
         ("provided_params", .list ((params.map Prod.fst).map .str)),
         ("expected_params", .dict [])]) := by
      simp only [validateTaskRouting, hc1, hc2]
      simp
    refine ⟨_, hval, by simp [isErrorDict, hasKey, dictFind], ?_⟩
    intro fn hfn
    unfold execute_tool_by_name
    rw [hfn, hval]
    exact ⟨rfl, rfl⟩

/-- Witness for the amended C9: `search_flights_tool` with hotel-shaped
parameters yields a routing-error mapping and no tool call. -/
theorem C9_routing_and_unknown_names_witness :
    ∃ err, validateTaskRouting "search_flights_tool" hotelShapedParams = some err ∧
      isErrorDict err = true ∧
      (execute_tool_by_name implAllOk "search_flights_tool" hotelShapedParams).1 = err ∧
      (execute_tool_by_name implAllOk "search_flights_tool" hotelShapedParams).2 = 0 := by
  obtain ⟨err, hval, herr, hexec⟩ :=
    (C9_routing_and_unknown_names implAllOk "search_flights_tool" hotelShapedParams).2.1
      (by decide) ⟨"hotel_id", by decide, by decide⟩
  obtain ⟨h1, h2⟩ := hexec (fun _ => .ok (.str "nearest-airports-data")) rfl
  exact ⟨err, hval, herr, h1, h2⟩

/-! Lemmas about the executor: stable priority sort and outcome counting. -/

theorem insertDesc_perm (x : Category × Task) :
    ∀ l : List (Category × Task), List.Perm (insertDesc x l) (x :: l) := by
  intro l
  induction l with
  | nil => simp [insertDesc]
  | cons y ys ih =>
      unfold insertDesc
      split
      · exact List.Perm.refl _
      · exact (ih.cons y).trans (List.Perm.swap x y ys)

theorem sortByPriorityDesc_perm (l : List (Category × Task)) :
    List.Perm (sortByPriorityDesc l) l := by
  induction l with
  | nil => simp [sortByPriorityDesc]
  | cons a l ih =>
      have : sortByPriorityDesc (a :: l) = insertDesc a (sortByPriorityDesc l) := rfl
      rw [this]
      exact (insertDesc_perm a (sortByPriorityDesc l)).trans (ih.cons a)

theorem insertDesc_chain (x : Category × Task) :
    ∀ l : List (Category × Task),
    List.Chain' (fun a b : Category × Task => b.2.priority ≤ a.2.priority) l →
    List.Chain' (fun a b : Category × Task => b.2.priority ≤ a.2.priority)
      (insertDesc x l) := by
  intro l
  induction l with
  | nil => intro _; simp [insertDesc]
  | cons y ys ih =>
      intro hch
      unfold insertDesc
      split
      · next hyx =>
          exact List.Chain'.cons hyx hch
      · next hyx =>
          have hxy : x.2.priority ≤ y.2.priority := le_of_lt (lt_of_not_le hyx)
      
          have hys : List.Chain' (fun a b : Category × Task =>
              b.2.priority ≤ a.2.priority) ys := hch.tail
          have hins := ih hys
          cases ys with
          | nil =>
              simp only [insertDesc]
              exact List.chain'_cons.mpr ⟨hxy, List.chain'_singleton x⟩
          | cons z zs =>
              have hyz : z.2.priority ≤ y.2.priority :=
                (List.chain'_cons.mp hch).1
              unfold insertDesc
              unfold insertDesc at hins
              split
              · next hzx =>
                  exact List.Chain'.cons hxy (by split at hins <;> simpa using hins)
              · next hzx =>
                  refine List.chain'_cons.mpr ⟨hyz, ?_⟩
                  split at hins
                  · exact absurd ‹z.2.priority ≤ x.2.priority› hzx
                  · exact hins

theorem sortByPriorityDesc_chain (l : List (Category × Task)) :
    List.Chain' (fun a b : Category × Task => b.2.priority ≤ a.2.priority)
      (sortByPriorityDesc l) := by
  induction l with
  | nil => simp [sortByPriorityDesc]
  | cons a l ih =>
      have : sortByPriorityDesc (a :: l) = insertDesc a (sortByPriorityDesc l) := rfl
      rw [this]
      exact insertDesc_chain a (sortByPriorityDesc l) ih

theorem insertDesc_filter (pr : Int) (x : Category × Task) :
    ∀ l : List (Category × Task),
    (insertDesc x l).filter (fun a => a.2.priority == pr)
      = (x :: l).filter (fun a => a.2.priority == pr) := by
  intro l
  induction l with
  | nil => rfl
  | cons y ys ih =>
      unfold insertDesc
      split
      · rfl
      · next hyx =>
          have hxyf : x.2.f.priority < y.2.f.priority := lt_of_not_le hyx
          by_cases hx : x.2.priority = pr
          · have hxf : x.2.f.priority = pr := hx
            have hxb : (x.2.priority == pr) = true := by
              simp only [beq_iff_eq]
              exact hx
            have hy : (y.2.priority == pr) = false := by
              simp only [beq_eq_false_iff_ne, ne_eq, Task.priority]
              omega
            simp only [List.filter_cons, hy]
            rw [ih]
            simp [List.filter_cons, hxb, hy]
          · have hx2 : (x.2.priority == pr) = false := by
              simp only [beq_eq_false_iff_ne, ne_eq]
              exact hx
            simp only [List.filter_cons, hx2]
            rw [ih]
            simp [List.filter_cons, show ¬x.2.f.priority = pr from hx]

theorem sortByPriorityDesc_filter (pr : Int) (l : List (Category × Task)) :
    (sortByPriorityDesc l).filter (fun a => a.2.priority == pr)
      = l.filter (fun a => a.2.priority == pr) := by
  induction l with
  | nil => rfl
  | cons a l ih =>
      have h1 : sortByPriorityDesc (a :: l) = insertDesc a (sortByPriorityDesc l) := rfl
      rw [h1, insertDesc_filter pr a (sortByPriorityDesc l)]
      simp only [List.filter_cons]
      rw [ih]

/-- The per-task routine records the elapsed time in every case. -/
theorem executeSingleTask_time (f : Nat → Except String Value) (dur : Nat)
    (cache : Cache) (t : Task) :
    (executeSingleTask f dur cache t).1.execution_time = some dur := by
  by_cases h : pyGet cache ("task_" ++ t.task_id) = Value.null
  · rw [executeSingleTask_miss h]
    simp
  · rw [executeSingleTask_hit rfl h]
    simp [Task.upd]

/-- The fan-in fold counts exactly the tasks finishing `completed` and
`failed`, and sums the recorded per-task times. -/
theorem runTasks_spec (f : Category → String → Value → Nat → Except String Value)
    (dur : Nat → Nat) :
    ∀ (l : List (Category × Task)) (idx : Nat) (cache : Cache),
    (runTasks f dur idx cache l).1.length = l.length ∧
    (runTasks f dur idx cache l).2.2.1 =
      ((runTasks f dur idx cache l).1.filter
        (fun ct => ct.2.status == TaskStatus.completed)).length ∧
    (runTasks f dur idx cache l).2.2.2.1 =
      ((runTasks f dur idx cache l).1.filter
        (fun ct => ct.2.status == TaskStatus.failed)).length ∧
    (runTasks f dur idx cache l).2.2.2.2 =
      ((runTasks f dur idx cache l).1.map
        (fun ct => ct.2.execution_time.getD 0)).sum := by
  intro l
  induction l with
  | nil =>
      intro idx cache
      simp [runTasks]
  | cons ct rest ih =>
      intro idx cache
      obtain ⟨c, t⟩ := ct
      have ihr := ih (idx + 1)
        (executeSingleTask (f c t.function t.request) (dur idx) cache t).2.1
      have htime := executeSingleTask_time (f c t.function t.request) (dur idx) cache t
      simp only [Task.function, Task.request, Task.status, Task.execution_time] at ihr htime
      simp only [runTasks]
      by_cases hc : (executeSingleTask (f c t.function t.request) (dur idx) cache t).1.status
          = TaskStatus.completed
      · simp only [Task.function, Task.request, Task.status] at hc
        refine ⟨by simp [ihr.1], ?_, ?_, ?_⟩
        · simp [hc, ihr.2.1]
        · simp [hc, ihr.2.2.1]
        · simp [hc, htime, ihr.2.2.2]
      · simp only [Task.function, Task.request, Task.status] at hc
        by_cases hf : (executeSingleTask (f c t.function t.request) (dur idx) cache t).1.status
            = TaskStatus.failed
        · simp only [Task.function, Task.request, Task.status] at hf
          refine ⟨by simp [ihr.1], ?_, ?_, ?_⟩
          · simp [hc, hf, ihr.2.1]
          · simp [hc, hf, ihr.2.2.1]
          · simp [hc, hf, htime, ihr.2.2.2]
        · simp only [Task.function, Task.request, Task.status] at hf
          refine ⟨by simp [ihr.1], ?_, ?_, ?_⟩
          · simp [hc, hf, ihr.2.1]
          · simp [hc, hf, ihr.2.2.1]
          · simp [hc, hf, htime, ihr.2.2.2]

/-- Summary fields of the executor: totals, outcome counts and summed
execution time. -/
theorem executeTasksConcurrent_spec
    (f : Category → String → Value → Nat → Except String Value)
    (dur : Nat → Nat) (cache : Cache) (p : Plan) :
    (executeTasksConcurrent f dur cache p).2.2.total_count
      = (collectPending p).length ∧
    (executeTasksConcurrent f dur cache p).2.2.completed_count =
      ((executeTasksConcurrent f dur cache p).1.filter
        (fun ct => ct.2.status == TaskStatus.completed)).length ∧
    (executeTasksConcurrent f dur cache p).2.2.failed_count =
      ((executeTasksConcurrent f dur cache p).1.filter
        (fun ct => ct.2.status == TaskStatus.failed)).length ∧
    (executeTasksConcurrent f dur cache p).2.2.total_execution_time =
      ((executeTasksConcurrent f dur cache p).1.map
        (fun ct => ct.2.execution_time.getD 0)).sum := by
  unfold executeTasksConcurrent
  by_cases hE : (collectPending p).isEmpty
  · simp [hE, List.isEmpty_iff.mp hE]
  · have hs := runTasks_spec f dur (sortByPriorityDesc (collectPending p)) 0 cache
    simp only [hE, Bool.false_eq_true, if_false]
    exact ⟨trivial, hs.2.1, hs.2.2.1, hs.2.2.2⟩

/-- Air-transport task of the C6 scenario (priority 2). -/
def tAir : Task :=
  .mk { task_name := "air", function := "search_flights_tool",
        request := .dict [], task_id := "A1", priority := 2 }

/-- Points-of-interest task of the C6 scenario (priority 0). -/
def tPoi : Task :=
  .mk { task_name := "poi", function := "find_places_tool",
        request := .dict [], task_id := "P1", priority := 0 }

/-- The two-task scenario plan. -/
def planScenario : Plan := ⟨[tAir], [], [], [tPoi]⟩

/-- Tools that always succeed. -/
def fScenario : Category → String → Value → Nat → Except String Value :=
  fun _ _ _ _ => .ok (.str "OK")

/-- Per-dispatch-slot elapsed times for the scenario. -/
def durScenario : Nat → Nat := fun i => i + 1

unseal retryLoop in
/-- C6: the executor collects exactly the pending tasks of all categories,
dispatches them in a stable priority-descending order (a permutation of
the collected list, sorted, preserving relative order inside each priority
class), and reports `total_count` equal to the number collected,
`completed_count` and `failed_count` equal to the number of tasks ending
in those statuses, and `total_execution_time` equal to the sum of the
per-task elapsed times; the two-task scenario (priorities 2 and 0, both
tools succeeding) yields total 2, completed 2, failed 0 with both tasks
completed. -/
theorem C6_executor_dispatch_and_counts
    (f : Category → String → Value → Nat → Except String Value)
    (dur : Nat → Nat) (cache : Cache) (p : Plan) :
    (∀ c t, (c, t) ∈ collectPending p ↔ t ∈ p.get c ∧ t.status = .pending) ∧
    List.Perm (sortByPriorityDesc (collectPending p)) (collectPending p) ∧
    List.Chain' (fun a b : Category × Task => b.2.priority ≤ a.2.priority)
      (sortByPriorityDesc (collectPending p)) ∧
    (∀ pr : Int, (sortByPriorityDesc (collectPending p)).filter
        (fun a => a.2.priority == pr)
      = (collectPending p).filter (fun a => a.2.priority == pr)) ∧
    (executeTasksConcurrent f dur cache p).2.2.total_count
      = (collectPending p).length ∧
    (executeTasksConcurrent f dur cache p).2.2.completed_count =
      ((executeTasksConcurrent f dur cache p).1.filter
        (fun ct => ct.2.status == TaskStatus.completed)).length ∧
    (executeTasksConcurrent f dur cache p).2.2.failed_count =
      ((executeTasksConcurrent f dur cache p).1.filter
        (fun ct => ct.2.status == TaskStatus.failed)).length ∧
    (executeTasksConcurrent f dur cache p).2.2.total_execution_time =
      ((executeTasksConcurrent f dur cache p).1.map
        (fun ct => ct.2.execution_time.getD 0)).sum ∧
    (executeTasksConcurrent fScenario durScenario [] planScenario).2.2
      = ⟨2, 2, 0, 3⟩ ∧
    (executeTasksConcurrent fScenario durScenario [] planScenario).1.map
      (fun ct => ct.2.status) = [.completed, .completed] := by
  have hspec := executeTasksConcurrent_spec f dur cache p
  refine ⟨?_, sortByPriorityDesc_perm _, sortByPriorityDesc_chain _,
    fun pr => sortByPriorityDesc_filter pr _,
    hspec.1, hspec.2.1, hspec.2.2.1, hspec.2.2.2, by decide, by decide⟩
  intro c t
  cases c <;>
    simp [collectPending, categoryOrder, Plan.get, List.mem_filter, and_comm]

/-! Lemmas about Python dict operations, for the state-store merge. -/

instance : LawfulBEq Value where
  eq_of_beq := Value.eq_of_beq
  rfl := Value.beq_refl _

theorem dictFind_eq_none_iff (d : List (String × Value)) (k : String) :
    dictFind d k = none ↔ ∀ p ∈ d, p.1 ≠ k := by
  induction d with
  | nil => simp [dictFind]
  | cons p rest ih =>
      by_cases hp : p.1 = k
      · simp [dictFind, hp]
      · simp [dictFind, hp, ih]

theorem dictFind_append_of_none {d : List (String × Value)} {k : String}
    (h : dictFind d k = none) (l2 : List (String × Value)) :
    dictFind (d ++ l2) k = dictFind l2 k := by
  induction d with
  | nil => rfl
  | cons p rest ih =>
      by_cases hp : p.1 = k
      · simp [dictFind, hp] at h
      · simp only [dictFind, hp, if_neg hp] at h ⊢
        exact ih h

theorem dictFind_append_of_some {d : List (String × Value)} {k : String} {v : Value}
    (h : dictFind d k = some v) (l2 : List (String × Value)) :
    dictFind (d ++ l2) k = some v := by
  induction d with
  | nil => simp [dictFind] at h
  | cons p rest ih =>
      by_cases hp : p.1 = k
      · simp only [dictFind, hp, if_pos hp] at h ⊢
        simp [List.cons_append, dictFind, hp] at *
        exact h
      · simp only [List.cons_append, dictFind, if_neg hp] at h ⊢
        exact ih h

theorem dictFind_map_set_self {k : String} (v : Value) :
    ∀ d : List (String × Value), hasKey d k = true →
    dictFind (d.map (fun q => if q.1 = k then (k, v) else q)) k = some v := by
  intro d
  induction d with
  | nil => intro h; simp [hasKey, dictFind] at h
  | cons p rest ih =>
      obtain ⟨a, b⟩ := p
      intro h
      by_cases hp : a = k
      · subst hp
        simp only [List.map_cons]
        simp [dictFind]
      · have hr : hasKey rest k = true := by
          simpa [hasKey, dictFind, hp] using h
        simp only [List.map_cons]
        rw [show (if (a, b).1 = k then (k, v) else (a, b)) = (a, b) from if_neg hp]
        simp only [dictFind, if_neg hp]
        exact ih hr

theorem dictFind_map_set_ne {k k2 : String} (v : Value) (h : k2 ≠ k) :
    ∀ d : List (String × Value),
    dictFind (d.map (fun q => if q.1 = k then (k, v) else q)) k2 = dictFind d k2 := by
  intro d
  induction d with
  | nil => rfl
  | cons p rest ih =>
      obtain ⟨a, b⟩ := p
      simp only [List.map_cons]
      by_cases hp : a = k
      · rw [show (if (a, b).1 = k then (k, v) else (a, b)) = (k, v) from if_pos hp]
        have h1 : ¬(k = k2) := fun hc => h hc.symm
        have h2 : ¬(a = k2) := fun hc => h (hc ▸ hp ▸ rfl)
        simp only [dictFind, if_neg h1, if_neg h2]
        exact ih
      · rw [show (if (a, b).1 = k then (k, v) else (a, b)) = (a, b) from if_neg hp]
        by_cases hp2 : a = k2
        · simp [dictFind, hp2]
        · simp only [dictFind, if_neg hp2]
          exact ih

theorem dictFind_dictSet_self (d : List (String × Value)) (k : String) (v : Value) :
    dictFind (dictSet d k v) k = some v := by
  by_cases hk : hasKey d k
  · simp only [dictSet, if_pos hk]
    exact dictFind_map_set_self v d hk
  · simp only [dictSet, if_neg hk]
    have hnone : dictFind d k = none := by
      cases hfind : dictFind d k with
      | none => rfl
      | some w => exact absurd (by simp [hasKey, hfind]) hk
    rw [dictFind_append_of_none hnone]
    simp [dictFind]

theorem dictFind_dictSet_ne (d : List (String × Value)) {k k2 : String} (v : Value)
    (h : k2 ≠ k) : dictFind (dictSet d k v) k2 = dictFind d k2 := by
  by_cases hk : hasKey d k
  · simp only [dictSet, if_pos hk]
    exact dictFind_map_set_ne v h d
  · simp only [dictSet, if_neg hk]
    cases hf : dictFind d k2 with
    | some w => exact dictFind_append_of_some hf _
    | none =>
        rw [dictFind_append_of_none hf]
        have h2 : ¬k = k2 := fun hc => h hc.symm
        simp [dictFind, h2]

theorem hasKey_dictSet_self (d : List (String × Value)) (k : String) (v : Value) :
    hasKey (dictSet d k v) k = true := by
  simp [hasKey, dictFind_dictSet_self]

/-- All bindings of a key hold a given value. -/
def allOcc (d : List (String × Value)) (k : String) (v : Value) : Prop :=
  ∀ p ∈ d, p.1 = k → p.2 = v

theorem not_hasKey_forall {d : List (String × Value)} {k : String}
    (hk : hasKey d k = false) : ∀ p ∈ d, p.1 ≠ k := by
  refine (dictFind_eq_none_iff d k).mp ?_
  cases hfind : dictFind d k with
  | none => rfl
  | some w =>
      rw [hasKey, hfind] at hk
      simp at hk

theorem allOcc_dictSet_self (d : List (String × Value)) (k : String) (v : Value) :
    allOcc (dictSet d k v) k v := by
  intro p hp hk
  simp only [dictSet] at hp
  split at hp
  · obtain ⟨q, hq, hpq⟩ := List.mem_map.mp hp
    by_cases h1 : q.1 = k
    · simp only [if_pos h1] at hpq
      rw [← hpq]
    · simp only [if_neg h1] at hpq
      subst hpq
      exact absurd hk h1
  · next hno =>
      rcases List.mem_append.mp hp with h1 | h1
      · have hfalse : hasKey d k = false := by
          cases hb : hasKey d k
          · rfl
          · exact absurd hb hno
        exact absurd hk (not_hasKey_forall hfalse p h1)
      · simp at h1
        rw [h1]

theorem allOcc_dictSet_ne {d : List (String × Value)} {k k2 : String} {v w : Value}
    (hne : k ≠ k2) (h : allOcc d k v) : allOcc (dictSet d k2 w) k v := by
  intro p hp hk
  simp only [dictSet] at hp
  split at hp
  · obtain ⟨q, hq, hpq⟩ := List.mem_map.mp hp
    by_cases h1 : q.1 = k2
    · simp only [if_pos h1] at hpq
      rw [← hpq] at hk
      exact absurd hk.symm hne
    · simp only [if_neg h1] at hpq
      subst hpq
      exact h q hq hk
  · rcases List.mem_append.mp hp with h1 | h1
    · exact h p h1 hk
    · simp at h1
      rw [h1] at hk
      exact absurd hk.symm hne

theorem map_set_id_of_allOcc {k : String} {v : Value} :
    ∀ d : List (String × Value), allOcc d k v →
    d.map (fun q => if q.1 = k then (k, v) else q) = d := by
  intro d
  induction d with
  | nil => intro _; rfl
  | cons p rest ih =>
      intro h
      simp only [List.map_cons]
      have ht := ih (fun q hq hqk => h q (List.mem_cons_of_mem p hq) hqk)
      rw [ht]
      by_cases hp : p.1 = k
      · have hv := h p (List.mem_cons_self p rest) hp
        rw [if_pos hp]
        obtain ⟨a, b⟩ := p
        simp only at hp hv
        rw [hp, hv]
      · rw [if_neg hp]

theorem dictSet_of_allOcc {d : List (String × Value)} {k : String} {v : Value}
    (hk : hasKey d k = true) (h : allOcc d k v) : dictSet d k v = d := by
  simp only [dictSet, if_pos hk]
  exact map_set_id_of_allOcc d h

theorem dictSet_dictSet_same (d : List (String × Value)) (k : String) (v w : Value) :
    dictSet (dictSet d k v) k w = dictSet d k w := by
  by_cases hd : hasKey d k
  · have hk : hasKey (dictSet d k v) k = true := hasKey_dictSet_self d k v
    simp only [dictSet, if_pos hd, if_pos] at hk ⊢
    rw [if_pos hk, List.map_map]
    apply List.map_congr_left
    intro p _
    by_cases hp : p.1 = k <;> simp [hp, Function.comp]
  · have hk : hasKey (dictSet d k v) k = true := hasKey_dictSet_self d k v
    simp only [dictSet, if_neg hd] at hk ⊢
    rw [if_pos hk]
    have hfalse : hasKey d k = false := by
      cases hb : hasKey d k
      · rfl
      · exact absurd hb hd
    have hno := not_hasKey_forall hfalse
    have hmap : (d ++ [(k, v)]).map (fun q => if q.1 = k then (k, w) else q)
        = d.map (fun q => if q.1 = k then (k, w) else q) ++ [(k, w)] := by
      simp
    rw [hmap]
    have hid : d.map (fun q => if q.1 = k then (k, w) else q) = d := by
      have hpt : ∀ p ∈ d, (if p.1 = k then ((k, w) : String × Value) else p) = id p :=
        fun p hp => by rw [if_neg (hno p hp)]; rfl
      rw [List.map_congr_left hpt, List.map_id]
    rw [hid]

/-- The contains test of the snapshot set agrees with membership. -/
theorem value_contains_iff_mem (l : List Value) (a : Value) :
    l.contains a = true ↔ a ∈ l := by
  simp

theorem mem_snapshotIds {bs : List Value} {i : Value} :
    i ∈ snapshotIds bs ↔ ∃ r ∈ bs, truthy (taskIdOf r) = true ∧ taskIdOf r = i := by
  simp only [snapshotIds, List.mem_filterMap]
  constructor
  · rintro ⟨a, ha, hopt⟩
    by_cases ht : truthy (taskIdOf a) = true
    · rw [if_pos ht] at hopt
      exact ⟨a, ha, ht, Option.some.inj hopt⟩
    · rw [if_neg ht] at hopt
      cases hopt
  · rintro ⟨r, hr, ht, hid⟩
    exact ⟨r, hr, by rw [if_pos ht, hid]⟩

theorem updateFirst_append_not {tid u : Value} :
    ∀ (pre l : List Value),
    (∀ x ∈ pre, (taskIdOf x == tid) = false) →
    updateFirst tid u (pre ++ l) = pre ++ updateFirst tid u l := by
  intro pre
  induction pre with
  | nil => intro l _; rfl
  | cons y ys ih =>
      intro l h
      have hy := h y (List.mem_cons_self _ _)
      simp only [List.cons_append, updateFirst, hy]
      simp only [Bool.false_eq_true, if_false, List.cons.injEq, true_and]
      exact ih l (fun x hx => h x (List.mem_cons_of_mem y hx))

theorem updateFirst_cons_match {tid u r : Value} (post : List Value)
    (h : (taskIdOf r == tid) = true) :
    updateFirst tid u (r :: post) = recordUpdate r u :: post := by
  simp [updateFirst, h]

theorem exists_match_decomp {tid : Value} :
    ∀ bs : List Value, (∃ r ∈ bs, (taskIdOf r == tid) = true) →
    ∃ pre r post, bs = pre ++ r :: post ∧
      (∀ x ∈ pre, (taskIdOf x == tid) = false) ∧ (taskIdOf r == tid) = true := by
  intro bs
  induction bs with
  | nil =>
      rintro ⟨r, hr, _⟩
      exact absurd hr (List.not_mem_nil r)
  | cons y ys ih =>
      rintro ⟨r, hr, hmatch⟩
      by_cases hy : (taskIdOf y == tid) = true
      · exact ⟨[], y, ys, rfl, by simp, hy⟩
      · have hrys : r ∈ ys := by
          rcases List.mem_cons.mp hr with h1 | h1
          · exact absurd (h1 ▸ hmatch) hy
          · exact h1
        obtain ⟨pre, r2, post, heq, hpre, hm⟩ := ih ⟨r, hrys, hmatch⟩
        refine ⟨y :: pre, r2, post, by rw [heq]; rfl, ?_, hm⟩
        intro x hx
        rcases List.mem_cons.mp hx with h1 | h1
        · rw [h1]
          cases hb : (taskIdOf y == tid)
          · rfl
          · exact absurd hb hy
        · exact hpre x h1

/-- The annotation record of the upsert law. -/
def aRec : Value := .dict [("task_id", .str "A"), ("status", .str "done")]

/-- The committed update `{tasks: [{task_id: "A", status: "done"}]}`. -/
def commitA : List (String × Value) := [("tasks", Value.list [aRec])]

theorem recordUpdate_aRec (rk : List (String × Value)) :
    recordUpdate (.dict rk) aRec
      = .dict (dictSet (dictSet rk "task_id" (.str "A")) "status" (.str "done")) := rfl

theorem taskIdOf_recordUpdate_aRec (rk : List (String × Value)) :
    taskIdOf (recordUpdate (.dict rk) aRec) = .str "A" := by
  rw [recordUpdate_aRec]
  simp only [taskIdOf, pyGet]
  rw [dictFind_dictSet_ne _ _ (by decide), dictFind_dictSet_self]
  rfl

theorem recordUpdate_aRec_idem (rk : List (String × Value)) :
    recordUpdate (recordUpdate (.dict rk) aRec) aRec = recordUpdate (.dict rk) aRec := by
  rw [recordUpdate_aRec, recordUpdate_aRec]
  congr 1
  have h1 : allOcc (dictSet (dictSet rk "task_id" (.str "A")) "status" (.str "done"))
      "task_id" (.str "A") :=
    allOcc_dictSet_ne (by decide) (allOcc_dictSet_self rk "task_id" (.str "A"))
  have hfind : dictFind (dictSet (dictSet rk "task_id" (.str "A")) "status" (.str "done"))
      "task_id" = some (.str "A") := by
    rw [dictFind_dictSet_ne _ _ (by decide), dictFind_dictSet_self]
  have h2 : hasKey (dictSet (dictSet rk "task_id" (.str "A")) "status" (.str "done"))
      "task_id" = true := by
    simp [hasKey, hfind]
  rw [dictSet_of_allOcc h2 h1]
  exact dictSet_of_allOcc (hasKey_dictSet_self _ _ _) (allOcc_dictSet_self _ _ _)

theorem taskIdOf_match_is_dict {r : Value}
    (h : (taskIdOf r == Value.str "A") = true) : ∃ rk, r = .dict rk := by
  cases r with
  | dict kvs => exact ⟨kvs, rfl⟩
  | null => exact absurd h (by decide)
  | bool b =>
      rw [show taskIdOf (Value.bool b) = Value.null from rfl] at h
      exact absurd h (by decide)
  | int n =>
      rw [show taskIdOf (Value.int n) = Value.null from rfl] at h
      exact absurd h (by decide)
  | str s =>
      rw [show taskIdOf (Value.str s) = Value.null from rfl] at h
      exact absurd h (by decide)
  | list xs =>
      rw [show taskIdOf (Value.list xs) = Value.null from rfl] at h
      exact absurd h (by decide)

/-- Unfolding of the single-record upsert. -/
theorem upsertTasks_single (cs : List Value) (u : Value) :
    upsertTasks cs [u] =
      (if (truthy (taskIdOf u) && (snapshotIds cs).contains (taskIdOf u)) = true
       then updateFirst (taskIdOf u) u cs else cs ++ [u]) := rfl

/-- Committing the record `{task_id: "A", status: "done"}` into a tasks
list twice yields the same list as committing it once. -/
theorem upsertA_idem (bs : List Value) :
    upsertTasks (upsertTasks bs [aRec]) [aRec] = upsertTasks bs [aRec] := by
  have hid : taskIdOf aRec = .str "A" := rfl
  by_cases hA : (snapshotIds bs).contains (Value.str "A") = true
  · have hcond : (truthy (taskIdOf aRec)
        && (snapshotIds bs).contains (taskIdOf aRec)) = true := by
      rw [hid, hA]
      rfl
    have h1 : upsertTasks bs [aRec] = updateFirst (.str "A") aRec bs := by
      rw [upsertTasks_single, if_pos hcond, hid]
    have hmem : ∃ r ∈ bs, (taskIdOf r == Value.str "A") = true := by
      obtain ⟨r, hr, ht, hidr⟩ :=
        mem_snapshotIds.mp ((value_contains_iff_mem _ _).mp hA)
      exact ⟨r, hr, by simp [hidr]⟩
    obtain ⟨pre, r, post, hbs, hpre, hr⟩ := exists_match_decomp bs hmem
    obtain ⟨rk, hrk⟩ := taskIdOf_match_is_dict hr
    have hupd : updateFirst (.str "A") aRec bs = pre ++ recordUpdate r aRec :: post := by
      rw [hbs, updateFirst_append_not pre _ hpre, updateFirst_cons_match post hr]
    have hrid : taskIdOf (recordUpdate r aRec) = .str "A" := by
      rw [hrk]
      exact taskIdOf_recordUpdate_aRec rk
    have hA2 : (snapshotIds (pre ++ recordUpdate r aRec :: post)).contains
        (Value.str "A") = true := by
      apply (value_contains_iff_mem _ _).mpr
      apply mem_snapshotIds.mpr
      exact ⟨recordUpdate r aRec, by simp, by rw [hrid]; decide, hrid⟩
    have hcond2 : (truthy (taskIdOf aRec) && (snapshotIds
        (pre ++ recordUpdate r aRec :: post)).contains (taskIdOf aRec)) = true := by
      rw [hid, hA2]
      rfl
    have hsecond : upsertTasks (pre ++ recordUpdate r aRec :: post) [aRec]
        = pre ++ recordUpdate r aRec :: post := by
      rw [upsertTasks_single, if_pos hcond2, hid]
      rw [updateFirst_append_not pre _ hpre,
          updateFirst_cons_match post (by rw [hrid]; decide)]
      have : recordUpdate (recordUpdate r aRec) aRec = recordUpdate r aRec := by
        rw [hrk]
        exact recordUpdate_aRec_idem rk
      rw [this]
    rw [h1, hupd, hsecond]
  · have hAf : (snapshotIds bs).contains (Value.str "A") = false := by
      cases hb : (snapshotIds bs).contains (Value.str "A")
      · rfl
      · exact absurd hb hA
    have hcond : (truthy (taskIdOf aRec)
        && (snapshotIds bs).contains (taskIdOf aRec)) = false := by
      rw [hid, hAf]
      rfl
    have h1 : upsertTasks bs [aRec] = bs ++ [aRec] := by
      rw [upsertTasks_single, if_neg (by rw [hcond]; decide)]
    have hnomatch : ∀ x ∈ bs, (taskIdOf x == Value.str "A") = false := by
      intro x hx
      cases hb : (taskIdOf x == Value.str "A")
      · rfl
      · exfalso
        have hxeq : taskIdOf x = .str "A" := eq_of_beq hb
        have hmem : Value.str "A" ∈ snapshotIds bs :=
          mem_snapshotIds.mpr ⟨x, hx, by rw [hxeq]; decide, hxeq⟩
        rw [(value_contains_iff_mem _ _).mpr hmem] at hAf
        cases hAf
    have hA2 : (snapshotIds (bs ++ [aRec])).contains (Value.str "A") = true := by
      apply (value_contains_iff_mem _ _).mpr
      apply mem_snapshotIds.mpr
      exact ⟨aRec, by simp, by decide, rfl⟩
    have hcond2 : (truthy (taskIdOf aRec)
        && (snapshotIds (bs ++ [aRec])).contains (taskIdOf aRec)) = true := by
      rw [hid, hA2]
      rfl
    have hsecond : upsertTasks (bs ++ [aRec]) [aRec] = bs ++ [aRec] := by
      rw [upsertTasks_single, if_pos hcond2, hid]
      rw [updateFirst_append_not bs _ hnomatch,
          updateFirst_cons_match [] (by decide)]
      have : recordUpdate aRec aRec = aRec := by decide
      rw [this]
    rw [h1, hsecond]

/-- The `tasks` branch of the merge: both sides lists, key present. -/
theorem mergeKey_tasks_list {base : List (String × Value)} {bs vs : List Value}
    (h : dictFind base "tasks" = some (.list bs)) :
    mergeKey base "tasks" (.list vs)
      = dictSet base "tasks" (.list (upsertTasks bs vs)) := by
  rw [mergeKey.eq_def, h]
  rfl

/-- Merging a single-binding update is one key merge. -/
theorem deepMerge_single (base : List (String × Value)) (k : String) (v : Value) :
    deepMerge base [(k, v)] = mergeKey base k v := by
  rw [deepMerge, deepMerge]

/-- C3: the state-store merge treats `tasks` specially — with both sides
lists it upserts by `task_id` (a matching truthy `task_id` updates the
first matching record in place by shallow field overwrite, any other
record is appended) — and committing
`{tasks: [{task_id: "A", status: "done"}]}` twice yields the same state
as committing it once. -/
theorem C3_tasks_upsert_idempotent :
    (∀ (base : List (String × Value)) (bs vs : List Value),
       dictFind base "tasks" = some (.list bs) →
       deepMerge base [("tasks", .list vs)]
         = dictSet base "tasks" (.list (upsertTasks bs vs))) ∧
    (∀ (bs : List Value) (u : Value),
       (truthy (taskIdOf u) && (snapshotIds bs).contains (taskIdOf u)) = true →
       upsertTasks bs [u] = updateFirst (taskIdOf u) u bs) ∧
    (∀ (bs : List Value) (u : Value),
       (truthy (taskIdOf u) && (snapshotIds bs).contains (taskIdOf u)) = false →
       upsertTasks bs [u] = bs ++ [u]) ∧
    (∀ (rk uk : List (String × Value)),
       recordUpdate (.dict rk) (.dict uk) = .dict (dictUpdate rk uk)) ∧
    (∀ (pre post : List Value) (r u : Value),
       (∀ x ∈ pre, (taskIdOf x == taskIdOf u) = false) →
       (taskIdOf r == taskIdOf u) = true →
       updateFirst (taskIdOf u) u (pre ++ r :: post)
         = pre ++ recordUpdate r u :: post) ∧
    (∀ (sm : StateManager) (bs : List Value),
       dictFind sm.state "tasks" = some (.list bs) →
       (sm.update_state commitA).update_state commitA = sm.update_state commitA) := by
  refine ⟨?_, ?_, ?_, ?_, ?_, ?_⟩
  · intro base bs vs h
    rw [deepMerge_single, mergeKey_tasks_list h]
  · intro bs u h
    rw [upsertTasks_single, if_pos h]
  · intro bs u h
    rw [upsertTasks_single, if_neg (by rw [h]; decide)]
  · intro rk uk
    rfl
  · intro pre post r u hpre hr
    rw [updateFirst_append_not pre _ hpre, updateFirst_cons_match post hr]
  · intro sm bs h
    have h1 : (sm.update_state commitA).state
        = dictSet sm.state "tasks" (.list (upsertTasks bs [aRec])) := by
      show deepMerge sm.state commitA = _
      rw [show deepMerge sm.state commitA
            = mergeKey sm.state "tasks" (Value.list [aRec])
          from deepMerge_single sm.state "tasks" (Value.list [aRec])]
      rw [mergeKey_tasks_list h]
    have h2 : dictFind (sm.update_state commitA).state "tasks"
        = some (.list (upsertTasks bs [aRec])) := by
      rw [h1]
      exact dictFind_dictSet_self _ _ _
    show StateManager.mk _ = StateManager.mk _
    congr 1
    show deepMerge (sm.update_state commitA).state commitA = (sm.update_state commitA).state
    rw [show deepMerge (sm.update_state commitA).state commitA
          = mergeKey (sm.update_state commitA).state "tasks" (Value.list [aRec])
        from deepMerge_single _ "tasks" (Value.list [aRec])]
    rw [mergeKey_tasks_list h2]
    rw [upsertA_idem bs, h1]
    exact dictSet_dictSet_same _ _ _ _

/-- A concrete session state whose `tasks` entry is an empty list. -/
def smWitness : StateManager := ⟨[("tasks", Value.list []), ("travel_info", .dict [])]⟩

/-- Witness for C3: committing the `"A"` record twice into a concrete
state equals committing it once. -/
theorem C3_tasks_upsert_idempotent_witness :
    (smWitness.update_state commitA).update_state commitA
      = smWitness.update_state commitA :=
  C3_tasks_upsert_idempotent.2.2.2.2.2 smWitness [] rfl

/-! Claim C5: which existing task becomes a new task's parent.  The code
tests `new_task.function.startswith(existing_task.function.split('_')[0])`
(a prefix test against the existing task's first token); the claim instead
compares the first underscore-delimited tokens of BOTH names for equality.
`mergeTasksClaimed` follows the claim's words; `mergeTasksAmended`
restates the code's behaviour in find-first-index form. -/

/-- Parent-candidate test as the claim words it: oracle callback required,
completed, and the first separator-delimited token of the existing
function name equals the first token of the new function name. -/
def parentMatchClaimed (existingTask newTask : Task) : Bool :=
  existingTask.agent_call_required && existingTask.status = TaskStatus.completed
    && (firstToken existingTask.function == firstToken newTask.function)

/-- `attachNew` under the claimed parent condition. -/
def attachNewClaimed (newTask : Task) : List Task → List Task × Bool
  | [] => ([], false)
  | e :: rest =>
      if parentMatchClaimed e newTask then
        (e.upd (fun fs =>
          { fs with subtasks := fs.subtasks ++
              [newTask.upd (fun nf => { nf with parent_task_id := some e.task_id })] }) :: rest,
         true)
      else
        let r := attachNewClaimed newTask rest
        (e :: r.1, r.2)

/-- Category merge under the claimed parent condition. -/
def mergeCategoryClaimed (ex news : List Task) : List Task :=
  news.foldl (fun acc n =>
    let r := attachNewClaimed n acc
    if r.2 then r.1 else r.1 ++ [n]) ex

/-- The merge the claim describes: first-token equality instead of the
prefix test. -/
def mergeTasksClaimed (existing news : Plan) : Plan :=
  { flights := mergeCategoryClaimed existing.flights news.flights,
    hotels := mergeCategoryClaimed existing.hotels news.hotels,
    trains := mergeCategoryClaimed existing.trains news.trains,
    maps := mergeCategoryClaimed existing.maps news.maps }

/-- Index of the first parent candidate in a category list. -/
def findParentIdx (n : Task) : List Task → Option Nat
  | [] => none
  | e :: rest =>
      if parentMatch e n then some 0
      else (findParentIdx n rest).map (· + 1)

/-- Attach a new task to the parent at a given position: set its
`parent_task_id` to that parent's `task_id` and append it to the parent's
`subtasks`. -/
def attachAt (n : Task) : List Task → Nat → List Task
  | [], _ => []
  | e :: rest, 0 =>
      e.upd (fun fs =>
        { fs with subtasks := fs.subtasks ++
            [n.upd (fun nf => { nf with parent_task_id := some e.task_id })] }) :: rest
  | e :: rest, i + 1 => e :: attachAt n rest i

/-- One merge step in find-first-index form: attach to the first parent
candidate of the accumulated list when one exists, otherwise append as a
new top-level entry. -/
def mergeStepAmended (acc : List Task) (n : Task) : List Task :=
  match findParentIdx n acc with
  | some i => attachAt n acc i
  | none => acc ++ [n]

/-- Category merge in find-first-index form. -/
def mergeCategoryAmended (ex news : List Task) : List Task :=
  news.foldl mergeStepAmended ex

/-- The merge as the amended wording describes it. -/
def mergeTasksAmended (existing news : Plan) : Plan :=
  { flights := mergeCategoryAmended existing.flights news.flights,
    hotels := mergeCategoryAmended existing.hotels news.hotels,
    trains := mergeCategoryAmended existing.trains news.trains,
    maps := mergeCategoryAmended existing.maps news.maps }

lemma mergeStepAmended_cons_neg (e n : Task) (rest : List Task)
    (hm : parentMatch e n = false) :
    mergeStepAmended (e :: rest) n = e :: mergeStepAmended rest n := by
  have hf : findParentIdx n (e :: rest) = (findParentIdx n rest).map (· + 1) := by
    simp only [findParentIdx, hm, Bool.false_eq_true, if_false]
  unfold mergeStepAmended
  rw [hf]
  cases h : findParentIdx n rest <;> simp [h, attachAt]

lemma attach_step_eq (n : Task) (ex : List Task) :
    (if (attachNew n ex).2 then (attachNew n ex).1 else (attachNew n ex).1 ++ [n])
      = mergeStepAmended ex n := by
  induction ex with
  | nil => simp [attachNew, mergeStepAmended, findParentIdx]
  | cons e rest ih =>
      by_cases hm : parentMatch e n
      · simp [attachNew, hm, mergeStepAmended, findParentIdx, attachAt]
      · have hm' : parentMatch e n = false := by simpa using hm
        have hA : attachNew n (e :: rest)
            = (e :: (attachNew n rest).1, (attachNew n rest).2) := by
          simp [attachNew, hm']
        rw [hA, mergeStepAmended_cons_neg e n rest hm', ← ih]
        by_cases hr : (attachNew n rest).2 <;> simp [hr]

lemma mergeCategory_eq_amended (ex news : List Task) :
    mergeCategory ex news = mergeCategoryAmended ex news := by
  unfold mergeCategory mergeCategoryAmended
  congr 1
  funext acc n
  exact attach_step_eq n acc

lemma findParentIdx_eq_none_iff (n : Task) (l : List Task) :
    findParentIdx n l = none ↔ ∀ e ∈ l, parentMatch e n = false := by
  induction l with
  | nil => simp [findParentIdx]
  | cons e rest ih => by_cases hm : parentMatch e n <;> simp [findParentIdx, hm, ih]

lemma findParentIdx_some_spec (n : Task) (l : List Task) (i : Nat)
    (h : findParentIdx n l = some i) :
    ∃ hi : i < l.length, parentMatch (l.get ⟨i, hi⟩) n = true
      ∧ ∀ j (hj : j < l.length), j < i → parentMatch (l.get ⟨j, hj⟩) n = false := by
  induction l generalizing i with
  | nil => simp [findParentIdx] at h
  | cons e rest ih =>
      by_cases hm : parentMatch e n
      · have hi0 : i = 0 := by
          simp [findParentIdx, hm] at h
          omega
        subst hi0
        exact ⟨by simp, by simpa using hm, fun j hj hji => absurd hji (by omega)⟩
      · have hm' : parentMatch e n = false := by simpa using hm
        simp only [findParentIdx, hm', Bool.false_eq_true, if_false] at h
        obtain ⟨i0, h0, rfl⟩ : ∃ i0, findParentIdx n rest = some i0 ∧ i0 + 1 = i := by
          cases hr : findParentIdx n rest with
          | none => rw [hr] at h; simp at h
          | some k =>
              rw [hr] at h
              simp at h
              exact ⟨k, rfl, h⟩
        obtain ⟨hi0, hmae, hbefore⟩ := ih i0 h0
        refine ⟨by simpa using Nat.succ_lt_succ hi0, by simpa using hmae, ?_⟩
        intro j hj hji
        cases j with
        | zero => simpa using hm'
        | succ j0 =>
            have hj0 : j0 < rest.length := by simpa using hj
            simpa using hbefore j0 hj0 (by omega)

/-- Existing completed oracle task with function name `se_a`. -/
def eC : Task := .mk
  { task_name := "seat selection", function := "se_a",
    request := .dict [], agent_call_required := true,
    status := .completed, task_id := "E1" }

/-- Newly proposed task with function name `search_b`. -/
def nC : Task := .mk
  { task_name := "flight search", function := "search_b",
    request := .dict [], task_id := "N1" }

/-- Existing plan holding only `eC` among flights. -/
def exC : Plan := { flights := [eC], hotels := [], trains := [], maps := [] }

/-- New tasks: only `nC`, in flights. -/
def newC : Plan := { flights := [nC], hotels := [], trains := [], maps := [] }

unseal String.substrEq.loop String.splitOnAux in
/-- C5 counterexample: the first tokens of `se_a` and `search_b` differ
(`se` vs `search`), so under the claimed first-token-equality condition
the new task is appended as a second top-level flight entry; the code's
prefix test `"search_b".startswith("se")` succeeds, so the merge instead
attaches the new task as a subtask and the flights category keeps length
one. -/
theorem C5_first_token_counterexample :
    ("search_b".startsWith (firstToken "se_a")
      ∧ firstToken "se_a" ≠ firstToken "search_b")
    ∧ (mergeTasks exC newC).flights.length = 1
    ∧ (mergeTasksClaimed exC newC).flights.length = 2
    ∧ (mergeTasks exC newC).flights.map (fun t => t.subtasks.length) = [1]
    ∧ (mergeTasksClaimed exC newC).flights.map (fun t => t.subtasks.length) = [0, 0] := by
  decide

/-- C5 (amended): merging attaches each newly proposed task to the task at
the first index of its category's accumulated list whose function name's
first token is a prefix of the new function name (among completed tasks
that required an oracle callback), appending as a new top-level entry when
no index qualifies; `findParentIdx` returns `none` exactly when no task of
the list qualifies, and `some i` only when position `i` qualifies and no
earlier position does. -/
theorem C5_merge_attaches_to_first_prefix_parent (existing news : Plan)
    (n : Task) (l : List Task) (i : Nat) :
    mergeTasks existing news = mergeTasksAmended existing news
    ∧ (findParentIdx n l = none ↔ ∀ e ∈ l, parentMatch e n = false)
    ∧ (findParentIdx n l = some i →
        ∃ hi : i < l.length, parentMatch (l.get ⟨i, hi⟩) n = true
          ∧ ∀ j (hj : j < l.length), j < i → parentMatch (l.get ⟨j, hj⟩) n = false) := by
  refine ⟨?_, findParentIdx_eq_none_iff n l, fun h => findParentIdx_some_spec n l i h⟩
  unfold mergeTasks mergeTasksAmended
  simp [mergeCategory_eq_amended]

unseal String.substrEq.loop String.splitOnAux in
/-- C5 amended theorem evaluated at the counterexample inputs. -/
theorem C5_merge_attaches_witness :
    mergeTasks exC newC = mergeTasksAmended exC newC
    ∧ (findParentIdx nC [eC] = none ↔ ∀ e ∈ [eC], parentMatch e nC = false)
    ∧ (findParentIdx nC [eC] = some 0 →
        ∃ hi : 0 < [eC].length, parentMatch ([eC].get ⟨0, hi⟩) nC = true
          ∧ ∀ j (hj : j < [eC].length), j < 0 →
              parentMatch ([eC].get ⟨j, hj⟩) nC = false) :=
  C5_merge_attaches_to_first_prefix_parent exC newC nC [eC] 0

lemma sizeOf_subtasks_lt (fs : TaskF Task) : sizeOf fs.subtasks < sizeOf (Task.mk fs) := by
  cases fs
  simp
  omega

mutual
/-- Every `task_id` in a task tree: the root id followed by the ids in
all (recursively nested) subtasks. -/
def Task.allIds : Task → List String
  | .mk fs => fs.task_id :: allIdsL fs.subtasks
termination_by t => sizeOf t
decreasing_by exact sizeOf_subtasks_lt _

/-- Every `task_id` in a forest of task trees. -/
def allIdsL : List Task → List String
  | [] => []
  | t :: ts => t.allIds ++ allIdsL ts
termination_by l => sizeOf l
decreasing_by all_goals (simp; try omega)
end

lemma allIdsL_append (l1 l2 : List Task) :
    allIdsL (l1 ++ l2) = allIdsL l1 ++ allIdsL l2 := by
  induction l1 with
  | nil => simp [allIdsL]
  | cons t ts ih => simp [allIdsL, ih]

lemma allIds_upd_parent (n : Task) (pid : String) :
    (n.upd (fun nf => { nf with parent_task_id := some pid })).allIds = n.allIds := by
  cases n with
  | mk fs => simp [Task.upd, Task.f, Task.allIds]

lemma allIds_upd_subtasks (e n : Task) :
    (e.upd (fun fs => { fs with subtasks := fs.subtasks ++ [n] })).allIds
      = e.allIds ++ n.allIds := by
  cases e with
  | mk fs => simp [Task.upd, Task.f, Task.allIds, allIdsL_append, allIdsL]

lemma attachNew_cons_pos (n e : Task) (rest : List Task) (hm : parentMatch e n = true) :
    attachNew n (e :: rest) =
      (e.upd (fun fs => { fs with subtasks := fs.subtasks ++
          [n.upd (fun nf => { nf with parent_task_id := some e.task_id })] }) :: rest,
       true) := by
  simp [attachNew, hm]

lemma attachNew_cons_neg (n e : Task) (rest : List Task) (hm : parentMatch e n = false) :
    attachNew n (e :: rest) = (e :: (attachNew n rest).1, (attachNew n rest).2) := by
  simp [attachNew, hm]

lemma attachNew_allIds (n : Task) (ex : List Task) :
    ((attachNew n ex).2 = true →
      (allIdsL (attachNew n ex).1).Perm (allIdsL ex ++ n.allIds))
    ∧ ((attachNew n ex).2 = false → (attachNew n ex).1 = ex) := by
  induction ex with
  | nil => simp [attachNew]
  | cons e rest ih =>
      by_cases hm : parentMatch e n
      · rw [attachNew_cons_pos n e rest hm]
        refine ⟨fun _ => ?_, fun hfalse => by simp at hfalse⟩
        simp only [allIdsL]
        rw [allIds_upd_subtasks, allIds_upd_parent]
        have h1 : (e.allIds ++ (n.allIds ++ allIdsL rest)).Perm
            (e.allIds ++ (allIdsL rest ++ n.allIds)) :=
          List.Perm.append_left e.allIds List.perm_append_comm
        simpa [List.append_assoc] using h1
      · have hm' : parentMatch e n = false := by simpa using hm
        rw [attachNew_cons_neg n e rest hm']
        constructor
        · intro htrue
          simp only at htrue
          have h1 := ih.1 htrue
          simp only [allIdsL]
          have h2 : (e.allIds ++ allIdsL (attachNew n rest).1).Perm
              (e.allIds ++ (allIdsL rest ++ n.allIds)) :=
            List.Perm.append_left e.allIds h1
          simpa [List.append_assoc] using h2
        · intro hfalse
          simp only at hfalse
          simp [ih.2 hfalse]

lemma retryLoop_stuck (f : Nat → Except String Value) (key : String) (c : Nat)
    (cache : Cache) (t : Task) (h : t.max_retries ≤ t.retry_count) :
    retryLoop f key c cache t = (t, cache, ⟨[], 0⟩) := by
  have hf : t.f.max_retries ≤ t.f.retry_count := h
  rw [retryLoop]
  simp [show ¬ t.f.retry_count < t.f.max_retries from by omega]

lemma mergeCategory_cons (ex : List Task) (n : Task) (news : List Task) :
    mergeCategory ex (n :: news)
      = mergeCategory
          (if (attachNew n ex).2 then (attachNew n ex).1 else (attachNew n ex).1 ++ [n])
          news := by
  simp [mergeCategory]

lemma mergeStep_allIds (ex : List Task) (n : Task) :
    (allIdsL
        (if (attachNew n ex).2 then (attachNew n ex).1 else (attachNew n ex).1 ++ [n])).Perm
      (allIdsL ex ++ n.allIds) := by
  by_cases h2 : (attachNew n ex).2
  · rw [if_pos h2]
    exact (attachNew_allIds n ex).1 h2
  · rw [if_neg h2]
    have hfix := (attachNew_allIds n ex).2 (by simpa using h2)
    rw [hfix, allIdsL_append]
    simp [allIdsL]

lemma mergeCategory_allIds (news : List Task) :
    ∀ ex : List Task,
      (allIdsL (mergeCategory ex news)).Perm (allIdsL ex ++ allIdsL news) := by
  induction news with
  | nil => intro ex; simp [mergeCategory, allIdsL]
  | cons n rest ih =>
      intro ex
      rw [mergeCategory_cons]
      refine ((ih _).trans ?_)
      have h1 := (mergeStep_allIds ex n).append_right (allIdsL rest)
      refine h1.trans ?_
      simp [allIdsL, List.append_assoc]

lemma retryLoop_outcomes (f : Nat → Except String Value) (key : String) (j : Nat) :
    ∀ (c : Nat) (cache : Cache) (t : Task), t.max_retries - t.retry_count = j →
    (retryLoop f key c cache t).1.task_id = t.task_id
    ∧ (((retryLoop f key c cache t).1.status = TaskStatus.completed
          ∧ (retryLoop f key c cache t).2.2.statusWrites = [TaskStatus.completed])
       ∨ ((retryLoop f key c cache t).1.status = TaskStatus.failed
          ∧ (retryLoop f key c cache t).2.2.statusWrites = [TaskStatus.failed])
       ∨ ((retryLoop f key c cache t).1.status = t.status
          ∧ (retryLoop f key c cache t).2.2.statusWrites = []))
    ∧ (t.retry_count < t.max_retries →
        (retryLoop f key c cache t).2.2.statusWrites ≠ []) := by
  induction j with
  | zero =>
      intro c cache t hj
      have hle : t.max_retries ≤ t.retry_count := by omega
      rw [retryLoop_stuck f key c cache t hle]
      exact ⟨rfl, Or.inr (Or.inr ⟨rfl, rfl⟩), fun hlt => absurd hlt (by omega)⟩
  | succ j ih =>
      intro c cache t hj
      have hlt : t.retry_count < t.max_retries := by omega
      cases hfc : f c with
      | ok r =>
          cases herr : isErrorDict r with
          | false =>
              rw [retryLoop_ok key cache t hlt hfc herr]
              exact ⟨by simp [Task.upd], Or.inl ⟨by simp [Task.upd], rfl⟩,
                     fun _ => by simp⟩
          | true =>
              rw [retryLoop_errdict key cache t hlt hfc herr]
              exact ⟨by simp [Task.upd], Or.inr (Or.inl ⟨by simp [Task.upd], rfl⟩),
                     fun _ => by simp⟩
      | error e =>
          by_cases hlast : t.retry_count + 1 = t.max_retries
          · rw [retryLoop_raise_last key cache t hlast hfc]
            exact ⟨by simp [Task.upd], Or.inr (Or.inl ⟨by simp [Task.upd], rfl⟩),
                   fun _ => by simp⟩
          · have hstep : t.retry_count + 1 < t.max_retries := by omega
            have hjf : t.f.max_retries - t.f.retry_count = j + 1 := hj
            have hstepf : t.f.retry_count + 1 < t.f.max_retries := hstep
            rw [retryLoop_raise_step key cache t hstep hfc]
            have hr := ih (c + 1) cache
              (t.upd (fun fs => { fs with retry_count := fs.retry_count + 1,
                                          error := some (.str e) }))
              (show t.f.max_retries - (t.f.retry_count + 1) = j from by omega)
            simp only at hr ⊢
            refine ⟨?_, ?_, fun _ => ?_⟩
            · rw [hr.1]; simp [Task.upd]
            · rcases hr.2.1 with h | h | h
              · exact Or.inl ⟨h.1, h.2⟩
              · exact Or.inr (Or.inl ⟨h.1, h.2⟩)
              · refine Or.inr (Or.inr ⟨?_, h.2⟩)
                rw [h.1]; simp [Task.upd]
            · exact hr.2.2 hstepf

lemma executeSingleTask_outcomes (f : Nat → Except String Value) (dur : Nat)
    (cache : Cache) (t : Task) :
    (executeSingleTask f dur cache t).1.task_id = t.task_id
    ∧ ((executeSingleTask f dur cache t).2.2.statusWrites
          = [TaskStatus.in_progress, TaskStatus.completed]
       ∨ (executeSingleTask f dur cache t).2.2.statusWrites
          = [TaskStatus.in_progress, TaskStatus.failed]
       ∨ (executeSingleTask f dur cache t).2.2.statusWrites = [TaskStatus.in_progress])
    ∧ (t.retry_count < t.max_retries →
        (executeSingleTask f dur cache t).1.status = TaskStatus.completed
        ∨ (executeSingleTask f dur cache t).1.status = TaskStatus.failed) := by
  by_cases hc : pyGet cache ("task_" ++ t.task_id) = Value.null
  · rw [executeSingleTask_miss hc]
    have hr := retryLoop_outcomes f ("task_" ++ t.task_id)
      ((t.upd (fun fs => { fs with status := .in_progress })).max_retries
        - (t.upd (fun fs => { fs with status := .in_progress })).retry_count)
      0 cache (t.upd (fun fs => { fs with status := .in_progress })) rfl
    simp only at hr ⊢
    refine ⟨?_, ?_, fun hlt => ?_⟩
    · rw [Task.task_id_updExec, hr.1]; simp [Task.upd]
    · rcases hr.2.1 with h | h | h
      · exact Or.inl (by rw [h.2])
      · exact Or.inr (Or.inl (by rw [h.2]))
      · exact Or.inr (Or.inr (by rw [h.2]))
    · have hltf : t.f.retry_count < t.f.max_retries := hlt
      have hne := hr.2.2 hltf
      rcases hr.2.1 with h | h | h
      · exact Or.inl (by rw [Task.status_updExec, h.1])
      · exact Or.inr (by rw [Task.status_updExec, h.1])
      · exact absurd h.2 hne
  · rw [executeSingleTask_hit rfl hc]
    refine ⟨by simp [Task.upd], Or.inl rfl, fun _ => Or.inl (by simp [Task.upd])⟩

lemma mem_collectPending (p : Plan) (c : Category) (t : Task)
    (h : (c, t) ∈ collectPending p) : t.status = TaskStatus.pending := by
  rcases List.mem_flatMap.1 h with ⟨c2, _, hm⟩
  rcases List.mem_map.1 hm with ⟨t2, ht2, heq⟩
  obtain ⟨-, hp⟩ := List.mem_filter.1 ht2
  cases heq
  exact of_decide_eq_true hp

lemma runTasks_ids (f : Category → String → Value → Nat → Except String Value)
    (dur : Nat → Nat) :
    ∀ (idx : Nat) (cache : Cache) (l : List (Category × Task)),
    (runTasks f dur idx cache l).1.map (fun ct => (ct.1, ct.2.task_id))
      = l.map (fun ct => (ct.1, ct.2.task_id)) := by
  intro idx cache l
  induction l generalizing idx cache with
  | nil => simp [runTasks]
  | cons ct rest ih =>
      obtain ⟨c, t⟩ := ct
      rw [runTasks]
      simp only [List.map_cons]
      refine congrArg₂ _ ?_ (ih (idx + 1) _)
      rw [(executeSingleTask_outcomes (f c t.function t.request) (dur idx) cache t).1]

/-- Registry stand-in that always raises. -/
def fBoom : Nat → Except String Value := fun _ => Except.error "boom"

/-- Category-indexed registry stand-in that always raises. -/
def frBoom : Category → String → Value → Nat → Except String Value :=
  fun _ _ _ _ => Except.error "boom"

/-- C7: the per-task routine writes `in_progress` first and then exactly
one of `completed` or `failed` (nothing more when retries were already
exhausted on entry); `pending` is never written back; a task entering the
routine with retries available ends `completed` or `failed`; only
`pending` tasks are collected for dispatch, so a completed task is never
dispatched again within the same plan; and neither the routine, the
fan-in loop nor the merger ever changes a `task_id` (merging permutes the
combined id multiset of the existing and new task trees). -/
theorem C7_status_discipline_and_id_stability
    (f : Nat → Except String Value)
    (fr : Category → String → Value → Nat → Except String Value)
    (dur : Nat) (durR : Nat → Nat) (idx : Nat) (cache : Cache) (t : Task)
    (p : Plan) (l : List (Category × Task)) (ex news : List Task) :
    (executeSingleTask f dur cache t).1.task_id = t.task_id
    ∧ ((executeSingleTask f dur cache t).2.2.statusWrites
          = [TaskStatus.in_progress, TaskStatus.completed]
       ∨ (executeSingleTask f dur cache t).2.2.statusWrites
          = [TaskStatus.in_progress, TaskStatus.failed]
       ∨ (executeSingleTask f dur cache t).2.2.statusWrites = [TaskStatus.in_progress])
    ∧ TaskStatus.pending ∉ (executeSingleTask f dur cache t).2.2.statusWrites
    ∧ (t.retry_count < t.max_retries →
        (executeSingleTask f dur cache t).1.status = TaskStatus.completed
        ∨ (executeSingleTask f dur cache t).1.status = TaskStatus.failed)
    ∧ (∀ c t0, (c, t0) ∈ collectPending p → t0.status = TaskStatus.pending)
    ∧ (runTasks fr durR idx cache l).1.map (fun ct => (ct.1, ct.2.task_id))
        = l.map (fun ct => (ct.1, ct.2.task_id))
    ∧ (allIdsL (mergeCategory ex news)).Perm (allIdsL ex ++ allIdsL news) := by
  have h := executeSingleTask_outcomes f dur cache t
  refine ⟨h.1, h.2.1, ?_, h.2.2, fun c t0 hm => mem_collectPending p c t0 hm,
          runTasks_ids fr durR idx cache l, mergeCategory_allIds news ex⟩
  rcases h.2.1 with hw | hw | hw <;> rw [hw] <;> decide

/-- C7 instantiated at concrete inputs: a pending task with retries
available, an always-raising registry, a one-task plan and a one-each
merge. -/
theorem C7_status_discipline_witness :
    (executeSingleTask fBoom 5 [] nC).1.task_id = nC.task_id
    ∧ ((executeSingleTask fBoom 5 [] nC).2.2.statusWrites
          = [TaskStatus.in_progress, TaskStatus.completed]
       ∨ (executeSingleTask fBoom 5 [] nC).2.2.statusWrites
          = [TaskStatus.in_progress, TaskStatus.failed]
       ∨ (executeSingleTask fBoom 5 [] nC).2.2.statusWrites = [TaskStatus.in_progress])
    ∧ TaskStatus.pending ∉ (executeSingleTask fBoom 5 [] nC).2.2.statusWrites
    ∧ (nC.retry_count < nC.max_retries →
        (executeSingleTask fBoom 5 [] nC).1.status = TaskStatus.completed
        ∨ (executeSingleTask fBoom 5 [] nC).1.status = TaskStatus.failed)
    ∧ (∀ c t0, (c, t0) ∈ collectPending exC → t0.status = TaskStatus.pending)
    ∧ (runTasks frBoom (fun _ => 0) 0 [] []).1.map (fun ct => (ct.1, ct.2.task_id))
        = ([] : List (Category × Task)).map (fun ct => (ct.1, ct.2.task_id))
    ∧ (allIdsL (mergeCategory [eC] [nC])).Perm (allIdsL [eC] ++ allIdsL [nC]) :=
  C7_status_discipline_and_id_stability fBoom frBoom 5 (fun _ => 0) 0 [] nC exC [] [eC] [nC]

/-- Heap extension: the frontier only grows and every cell below the old
frontier reads the same. -/
def HExt (h1 h2 : Heap) : Prop :=
  h1.next ≤ h2.next ∧ ∀ b, b < h1.next → lookupH h2 b = lookupH h1 b

lemma HExt.refl (h : Heap) : HExt h h := ⟨le_refl _, fun _ _ => rfl⟩

lemma HExt.trans {h1 h2 h3 : Heap} (a : HExt h1 h2) (b : HExt h2 h3) :
    HExt h1 h3 :=
  ⟨le_trans a.1 b.1, fun c hc => (b.2 c (lt_of_lt_of_le hc a.1)).trans (a.2 c hc)⟩

mutual

/-- Height of a value tree: the render fuel it needs. -/
def heightV : Value → Nat
  | .null => 1
  | .bool _ => 1
  | .int _ => 1
  | .str _ => 1
  | .list xs => heightL xs + 1
  | .dict kvs => heightF kvs + 1

/-- Height of a list of values. -/
def heightL : List Value → Nat
  | [] => 0
  | v :: rest => max (heightV v) (heightL rest)

/-- Height of a field list. -/
def heightF : List (String × Value) → Nat
  | [] => 0
  | (_, v) :: rest => max (heightV v) (heightF rest)

end

lemma lookupH_extend (h : Heap) (tail : List (Nat × HVal)) (n2 a : Nat)
    (ha : a < h.next) (htail : ∀ p ∈ tail, h.next ≤ p.1) :
    lookupH ⟨h.mem ++ tail, n2⟩ a = lookupH h a := by
  unfold lookupH
  rw [List.find?_append]
  have hnone : tail.find? (fun p => p.1 = a) = none := by
    rw [List.find?_eq_none]
    intro q hq
    have := htail q hq
    simp only [decide_eq_true_eq]
    omega
  cases hfind : h.mem.find? (fun p => p.1 = a) with
  | none => simp [hfind, hnone]
  | some q => simp [hfind]

lemma lookupH_writeH_ne (h : Heap) (c : Nat) (v : HVal) (a : Nat) (hne : a ≠ c) :
    lookupH (writeH h c v) a = lookupH h a := by
  unfold lookupH writeH
  simp only
  congr 1
  induction h.mem with
  | nil => rfl
  | cons p rest ih =>
      simp only [List.map_cons, List.find?_cons]
      by_cases hp : p.1 = a
      · have hpc : ¬ p.1 = c := by omega
        rw [if_neg hpc]
        simp [hp]
      · by_cases hpc : p.1 = c
        · rw [if_pos hpc]
          have h1 : ¬ ((c, v).1 = a) := by simp; omega
          simp [hp, h1, ih]
        · rw [if_neg hpc]
          simp [hp, ih]

lemma lookupH_high (h : Heap) (tail : List (Nat × HVal)) (n2 b : Nat) (v : HVal)
    (hwf : wfHeap h) (hb : h.next ≤ b)
    (hl : lookupH ⟨h.mem ++ tail, n2⟩ b = some v) :
    ∃ q ∈ tail, q.1 = b ∧ q.2 = v := by
  unfold lookupH at hl
  rw [List.find?_append] at hl
  have hnone : h.mem.find? (fun p => p.1 = b) = none := by
    rw [List.find?_eq_none]
    intro q hq
    have := (hwf q hq).1
    simp only [decide_eq_true_eq]
    omega
  rw [hnone, Option.none_or] at hl
  cases hfind : tail.find? (fun p => p.1 = b) with
  | none => rw [hfind] at hl; simp at hl
  | some q =>
      rw [hfind] at hl
      simp at hl
      refine ⟨q, List.mem_of_find?_eq_some hfind, ?_, hl⟩
      have := List.find?_some hfind
      simpa using this

lemma alloc_decomp (h : Heap) (v : HVal) :
    (alloc h v).1.mem = h.mem ++ [(h.next, v)]
    ∧ (alloc h v).1.next = h.next + 1 ∧ (alloc h v).2 = h.next :=
  ⟨rfl, rfl, rfl⟩

mutual

/-- Allocation appends only fresh, internally closed cells and returns a
fresh root. -/
theorem allocVal_decomp (v : Value) (h : Heap) :
    ∃ tail, (allocVal h v).1.mem = h.mem ++ tail
      ∧ (∀ p ∈ tail, h.next ≤ p.1 ∧ p.1 < (allocVal h v).1.next
          ∧ ∀ rr ∈ childRefs p.2, h.next ≤ rr ∧ rr < (allocVal h v).1.next)
      ∧ h.next ≤ (allocVal h v).2
      ∧ (allocVal h v).2 < (allocVal h v).1.next
      ∧ h.next ≤ (allocVal h v).1.next := by
  cases v with
  | null =>
      refine ⟨[(h.next, .hnull)], ?_, ?_, ?_, ?_, ?_⟩ <;>
        simp [allocVal, alloc, childRefs]
  | bool b =>
      refine ⟨[(h.next, .hbool b)], ?_, ?_, ?_, ?_, ?_⟩ <;>
        simp [allocVal, alloc, childRefs]
  | int n =>
      refine ⟨[(h.next, .hint n)], ?_, ?_, ?_, ?_, ?_⟩ <;>
        simp [allocVal, alloc, childRefs]
  | str s =>
      refine ⟨[(h.next, .hstr s)], ?_, ?_, ?_, ?_, ?_⟩ <;>
        simp [allocVal, alloc, childRefs]
  | list xs =>
      obtain ⟨tailL, hmem, htail, hrefs, hle⟩ := allocList_decomp xs h
      refine ⟨tailL ++ [((allocList h xs).1.next, .harr (allocList h xs).2)],
              ?_, ?_, ?_, ?_, ?_⟩
      · simp only [allocVal, alloc]
        rw [hmem, List.append_assoc]
      · intro p hp
        simp only [allocVal, alloc]
        rcases List.mem_append.1 hp with hpL | hpNew
        · obtain ⟨h1, h2, h3⟩ := htail p hpL
          exact ⟨h1, by omega, fun rr hrr => ⟨(h3 rr hrr).1, by
            have := (h3 rr hrr).2; omega⟩⟩
        · have hpEq : p = ((allocList h xs).1.next, .harr (allocList h xs).2) := by
            simpa using hpNew
          subst hpEq
          refine ⟨hle, by omega, fun rr hrr => ?_⟩
          have hrr2 : rr ∈ (allocList h xs).2 := by simpa [childRefs] using hrr
          obtain ⟨ha, hb⟩ := hrefs rr hrr2
          exact ⟨ha, by omega⟩
      · simp only [allocVal, alloc]
        exact hle
      · simp only [allocVal, alloc]
        omega
      · simp only [allocVal, alloc]
        omega
  | dict kvs =>
      obtain ⟨tailF, hmem, htail, hrefs, hle⟩ := allocFields_decomp kvs h
      refine ⟨tailF ++ [((allocFields h kvs).1.next, .hobj (allocFields h kvs).2)],
              ?_, ?_, ?_, ?_, ?_⟩
      · simp only [allocVal, alloc]
        rw [hmem, List.append_assoc]
      · intro p hp
        simp only [allocVal, alloc]
        rcases List.mem_append.1 hp with hpL | hpNew
        · obtain ⟨h1, h2, h3⟩ := htail p hpL
          exact ⟨h1, by omega, fun rr hrr => ⟨(h3 rr hrr).1, by
            have := (h3 rr hrr).2; omega⟩⟩
        · have hpEq : p = ((allocFields h kvs).1.next, .hobj (allocFields h kvs).2) := by
            simpa using hpNew
          subst hpEq
          refine ⟨hle, by omega, fun rr hrr => ?_⟩
          have hrr2 : rr ∈ (allocFields h kvs).2.map Prod.snd := by
            simpa [childRefs] using hrr
          obtain ⟨ha, hb⟩ := hrefs rr hrr2
          exact ⟨ha, by omega⟩
      · simp only [allocVal, alloc]
        exact hle
      · simp only [allocVal, alloc]
        omega
      · simp only [allocVal, alloc]
        omega

/-- Element allocation appends only fresh closed cells and returns fresh
addresses. -/
theorem allocList_decomp (l : List Value) (h : Heap) :
    ∃ tail, (allocList h l).1.mem = h.mem ++ tail
      ∧ (∀ p ∈ tail, h.next ≤ p.1 ∧ p.1 < (allocList h l).1.next
          ∧ ∀ rr ∈ childRefs p.2, h.next ≤ rr ∧ rr < (allocList h l).1.next)
      ∧ (∀ r ∈ (allocList h l).2, h.next ≤ r ∧ r < (allocList h l).1.next)
      ∧ h.next ≤ (allocList h l).1.next := by
  cases l with
  | nil => exact ⟨[], by simp [allocList], by simp, by simp [allocList], by simp [allocList]⟩
  | cons v rest =>
      obtain ⟨tailV, hmemV, htailV, hrootLo, hrootHi, hleV⟩ := allocVal_decomp v h
      obtain ⟨tailR, hmemR, htailR, hrefsR, hleR⟩ := allocList_decomp rest (allocVal h v).1
      refine ⟨tailV ++ tailR, ?_, ?_, ?_, ?_⟩
      · simp only [allocList]
        rw [hmemR, hmemV, List.append_assoc]
      · intro p hp
        simp only [allocList]
        rcases List.mem_append.1 hp with hpV | hpR
        · obtain ⟨h1, h2, h3⟩ := htailV p hpV
          exact ⟨h1, by omega, fun rr hrr => ⟨(h3 rr hrr).1, by
            have := (h3 rr hrr).2; omega⟩⟩
        · obtain ⟨h1, h2, h3⟩ := htailR p hpR
          exact ⟨by omega, h2, fun rr hrr => ⟨by
            have := (h3 rr hrr).1; omega, (h3 rr hrr).2⟩⟩
      · intro r hr
        simp only [allocList] at hr ⊢
        rcases List.mem_cons.1 hr with hr1 | hr2
        · subst hr1
          exact ⟨hrootLo, by omega⟩
        · obtain ⟨ha, hb⟩ := hrefsR r hr2
          exact ⟨by omega, hb⟩
      · simp only [allocList]
        omega

/-- Field allocation appends only fresh closed cells and returns fresh
addresses. -/
theorem allocFields_decomp (kvs : List (String × Value)) (h : Heap) :
    ∃ tail, (allocFields h kvs).1.mem = h.mem ++ tail
      ∧ (∀ p ∈ tail, h.next ≤ p.1 ∧ p.1 < (allocFields h kvs).1.next
          ∧ ∀ rr ∈ childRefs p.2, h.next ≤ rr ∧ rr < (allocFields h kvs).1.next)
      ∧ (∀ r ∈ (allocFields h kvs).2.map Prod.snd,
          h.next ≤ r ∧ r < (allocFields h kvs).1.next)
      ∧ h.next ≤ (allocFields h kvs).1.next := by
  cases kvs with
  | nil => exact ⟨[], by simp [allocFields], by simp, by simp [allocFields], by simp [allocFields]⟩
  | cons kv rest =>
      obtain ⟨k, v⟩ := kv
      obtain ⟨tailV, hmemV, htailV, hrootLo, hrootHi, hleV⟩ := allocVal_decomp v h
      obtain ⟨tailR, hmemR, htailR, hrefsR, hleR⟩ := allocFields_decomp rest (allocVal h v).1
      refine ⟨tailV ++ tailR, ?_, ?_, ?_, ?_⟩
      · simp only [allocFields]
        rw [hmemR, hmemV, List.append_assoc]
      · intro p hp
        simp only [allocFields]
        rcases List.mem_append.1 hp with hpV | hpR
        · obtain ⟨h1, h2, h3⟩ := htailV p hpV
          exact ⟨h1, by omega, fun rr hrr => ⟨(h3 rr hrr).1, by
            have := (h3 rr hrr).2; omega⟩⟩
        · obtain ⟨h1, h2, h3⟩ := htailR p hpR
          exact ⟨by omega, h2, fun rr hrr => ⟨by
            have := (h3 rr hrr).1; omega, (h3 rr hrr).2⟩⟩
      · intro r hr
        simp only [allocFields] at hr ⊢
        rcases (by simpa using hr :
            r = (allocVal h v).2
              ∨ ∃ a, (a, r) ∈ (allocFields (allocVal h v).1 rest).2) with hr1 | ⟨a, hr2⟩
        · subst hr1
          exact ⟨hrootLo, by omega⟩
        · have hmem2 : r ∈ (allocFields (allocVal h v).1 rest).2.map Prod.snd :=
            List.mem_map.2 ⟨(a, r), hr2, rfl⟩
          obtain ⟨ha, hb⟩ := hrefsR r hmem2
          exact ⟨by omega, hb⟩
      · simp only [allocFields]
        omega

end

lemma HExt_of_mem_decomp (h h2 : Heap) (tail : List (Nat × HVal))
    (hmem : h2.mem = h.mem ++ tail) (htail : ∀ p ∈ tail, h.next ≤ p.1)
    (hle : h.next ≤ h2.next) : HExt h h2 := by
  refine ⟨hle, fun b hb => ?_⟩
  have he : (⟨h.mem ++ tail, h2.next⟩ : Heap) = h2 := by rw [← hmem]
  rw [← he]
  exact lookupH_extend h tail h2.next b hb htail

lemma wfHeap_of_decomp (h h2 : Heap) (tail : List (Nat × HVal))
    (hwf : wfHeap h) (hmem : h2.mem = h.mem ++ tail)
    (htail : ∀ p ∈ tail, h.next ≤ p.1 ∧ p.1 < h2.next
      ∧ ∀ rr ∈ childRefs p.2, h.next ≤ rr ∧ rr < h2.next)
    (hle : h.next ≤ h2.next) : wfHeap h2 := by
  intro p hp
  rw [hmem] at hp
  rcases List.mem_append.1 hp with h1 | h1
  · obtain ⟨ha, hb⟩ := hwf p h1
    exact ⟨by omega, fun rr hrr => by have := hb rr hrr; omega⟩
  · obtain ⟨ha, hb, hc⟩ := htail p h1
    exact ⟨hb, fun rr hrr => (hc rr hrr).2⟩

lemma allocVal_HExt (h : Heap) (v : Value) : HExt h (allocVal h v).1 := by
  obtain ⟨tail, hmem, htail, _, _, hle⟩ := allocVal_decomp v h
  exact HExt_of_mem_decomp h _ tail hmem (fun p hp => (htail p hp).1) hle

lemma allocVal_wf (h : Heap) (v : Value) (hwf : wfHeap h) :
    wfHeap (allocVal h v).1 := by
  obtain ⟨tail, hmem, htail, _, _, hle⟩ := allocVal_decomp v h
  exact wfHeap_of_decomp h _ tail hwf hmem htail hle

lemma allocList_HExt (h : Heap) (l : List Value) : HExt h (allocList h l).1 := by
  obtain ⟨tail, hmem, htail, _, hle⟩ := allocList_decomp l h
  exact HExt_of_mem_decomp h _ tail hmem (fun p hp => (htail p hp).1) hle

lemma allocList_wf (h : Heap) (l : List Value) (hwf : wfHeap h) :
    wfHeap (allocList h l).1 := by
  obtain ⟨tail, hmem, htail, _, hle⟩ := allocList_decomp l h
  exact wfHeap_of_decomp h _ tail hwf hmem htail hle

lemma allocFields_HExt (h : Heap) (kvs : List (String × Value)) :
    HExt h (allocFields h kvs).1 := by
  obtain ⟨tail, hmem, htail, _, hle⟩ := allocFields_decomp kvs h
  exact HExt_of_mem_decomp h _ tail hmem (fun p hp => (htail p hp).1) hle

lemma allocFields_wf (h : Heap) (kvs : List (String × Value)) (hwf : wfHeap h) :
    wfHeap (allocFields h kvs).1 := by
  obtain ⟨tail, hmem, htail, _, hle⟩ := allocFields_decomp kvs h
  exact wfHeap_of_decomp h _ tail hwf hmem htail hle

lemma lookupH_children_lt (h : Heap) (hwf : wfHeap h) (a : Nat) (v : HVal)
    (hl : lookupH h a = some v) : ∀ rr ∈ childRefs v, rr < h.next := by
  unfold lookupH at hl
  cases hfind : h.mem.find? (fun p => p.1 = a) with
  | none => rw [hfind] at hl; simp at hl
  | some q =>
      rw [hfind] at hl
      simp at hl
      subst hl
      exact fun rr hrr => (hwf q (List.mem_of_find?_eq_some hfind)).2 rr hrr

lemma renderA_succ (fuel : Nat) (h : Heap) (a : Nat) :
    renderA (fuel + 1) h a =
      match lookupH h a with
      | none => none
      | some .hnull => some .null
      | some (.hbool b) => some (.bool b)
      | some (.hint n) => some (.int n)
      | some (.hstr s) => some (.str s)
      | some (.harr es) => (renderL fuel h es).map .list
      | some (.hobj fs) => (renderF fuel h fs).map .dict := by
  rw [renderA]

lemma renderL_nil (fuel : Nat) (h : Heap) : renderL fuel h [] = some [] := by
  rw [renderL]

lemma renderL_cons (fuel : Nat) (h : Heap) (a : Nat) (rest : List Nat) :
    renderL fuel h (a :: rest) =
      match renderA fuel h a with
      | none => none
      | some v =>
          match renderL fuel h rest with
          | none => none
          | some vs => some (v :: vs) := by
  rw [renderL]

lemma renderF_nil (fuel : Nat) (h : Heap) : renderF fuel h [] = some [] := by
  rw [renderF]

lemma renderF_cons (fuel : Nat) (h : Heap) (k : String) (a : Nat)
    (rest : List (String × Nat)) :
    renderF fuel h ((k, a) :: rest) =
      match renderA fuel h a with
      | none => none
      | some v =>
          match renderF fuel h rest with
          | none => none
          | some vs => some ((k, v) :: vs) := by
  rw [renderF]

mutual

/-- Rendering sees only cells below the frontier: any heap agreeing there
renders the same tree. -/
theorem renderA_ext (fuel : Nat) (h h2 : Heap) (a : Nat)
    (hlk : ∀ b, b < h.next → lookupH h2 b = lookupH h b)
    (hwf : wfHeap h) (ha : a < h.next) :
    renderA fuel h2 a = renderA fuel h a := by
  cases fuel with
  | zero => rw [renderA, renderA]
  | succ fuel =>
      rw [renderA_succ, renderA_succ, hlk a ha]
      cases hcell : lookupH h a with
      | none => rfl
      | some v =>
          cases v with
          | hnull => rfl
          | hbool b => rfl
          | hint n => rfl
          | hstr s => rfl
          | harr es =>
              have hch := lookupH_children_lt h hwf a _ hcell
              dsimp only
              rw [renderL_ext fuel h h2 es hlk hwf
                (fun e he => hch e (by simpa [childRefs] using he))]
          | hobj fs =>
              have hch := lookupH_children_lt h hwf a _ hcell
              dsimp only
              rw [renderF_ext fuel h h2 fs hlk hwf
                (fun kv hkv => hch kv.2 (by
                  simp only [childRefs]
                  exact List.mem_map.2 ⟨kv, hkv, rfl⟩))]
termination_by (fuel, 0)

/-- List rendering under heap agreement below the frontier. -/
theorem renderL_ext (fuel : Nat) (h h2 : Heap) (es : List Nat)
    (hlk : ∀ b, b < h.next → lookupH h2 b = lookupH h b)
    (hwf : wfHeap h) (hes : ∀ e ∈ es, e < h.next) :
    renderL fuel h2 es = renderL fuel h es := by
  cases es with
  | nil => rw [renderL_nil, renderL_nil]
  | cons a rest =>
      rw [renderL_cons, renderL_cons,
          renderA_ext fuel h h2 a hlk hwf (hes a (List.mem_cons_self a rest)),
          renderL_ext fuel h h2 rest hlk hwf
            (fun e he => hes e (List.mem_cons_of_mem a he))]
termination_by (fuel, es.length + 1)

/-- Field rendering under heap agreement below the frontier. -/
theorem renderF_ext (fuel : Nat) (h h2 : Heap) (fs : List (String × Nat))
    (hlk : ∀ b, b < h.next → lookupH h2 b = lookupH h b)
    (hwf : wfHeap h) (hfs : ∀ kv ∈ fs, kv.2 < h.next) :
    renderF fuel h2 fs = renderF fuel h fs := by
  cases fs with
  | nil => rw [renderF_nil, renderF_nil]
  | cons kv rest =>
      obtain ⟨k, a⟩ := kv
      rw [renderF_cons, renderF_cons,
          renderA_ext fuel h h2 a hlk hwf (hfs (k, a) (List.mem_cons_self _ rest)),
          renderF_ext fuel h h2 rest hlk hwf
            (fun kv2 hkv2 => hfs kv2 (List.mem_cons_of_mem (k, a) hkv2))]
termination_by (fuel, fs.length + 1)

end

lemma alloc_HExt (h : Heap) (v : HVal) : HExt h (alloc h v).1 :=
  HExt_of_mem_decomp h _ [(h.next, v)] rfl
    (fun p hp => by
      have hp2 := List.mem_singleton.1 hp
      subst hp2
      exact le_refl _)
    (by simp [alloc])

lemma lookupH_alloc_root (h : Heap) (hwf : wfHeap h) (v : HVal) :
    lookupH (alloc h v).1 (alloc h v).2 = some v := by
  show lookupH ⟨h.mem ++ [(h.next, v)], h.next + 1⟩ h.next = some v
  unfold lookupH
  rw [List.find?_append]
  have hnone : h.mem.find? (fun p => p.1 = h.next) = none := by
    rw [List.find?_eq_none]
    intro q hq
    have := (hwf q hq).1
    simp only [decide_eq_true_eq]
    omega
  rw [hnone, Option.none_or]
  simp [List.find?_cons]

lemma allocVal_null (h : Heap) : allocVal h .null = alloc h .hnull := by
  rw [allocVal]

lemma allocVal_bool (h : Heap) (b : Bool) : allocVal h (.bool b) = alloc h (.hbool b) := by
  rw [allocVal]

lemma allocVal_int (h : Heap) (n : Int) : allocVal h (.int n) = alloc h (.hint n) := by
  rw [allocVal]

lemma allocVal_str (h : Heap) (s : String) : allocVal h (.str s) = alloc h (.hstr s) := by
  rw [allocVal]

lemma allocVal_list (h : Heap) (xs : List Value) :
    allocVal h (.list xs) = alloc (allocList h xs).1 (.harr (allocList h xs).2) := by
  rw [allocVal]

lemma allocVal_dict (h : Heap) (kvs : List (String × Value)) :
    allocVal h (.dict kvs) = alloc (allocFields h kvs).1 (.hobj (allocFields h kvs).2) := by
  rw [allocVal]

lemma allocList_nil (h : Heap) : allocList h [] = (h, []) := by
  rw [allocList]

lemma allocList_cons (h : Heap) (v : Value) (rest : List Value) :
    allocList h (v :: rest) =
      ((allocList (allocVal h v).1 rest).1,
       (allocVal h v).2 :: (allocList (allocVal h v).1 rest).2) := by
  rw [allocList]

lemma allocFields_nil (h : Heap) : allocFields h [] = (h, []) := by
  rw [allocFields]

lemma allocFields_cons (h : Heap) (k : String) (v : Value)
    (rest : List (String × Value)) :
    allocFields h ((k, v) :: rest) =
      ((allocFields (allocVal h v).1 rest).1,
       (k, (allocVal h v).2) :: (allocFields (allocVal h v).1 rest).2) := by
  rw [allocFields]

mutual

/-- The fresh copy renders back to exactly the copied value, in the copy
heap or any extension of it. -/
theorem renderCopyA (v : Value) (h : Heap) (hwf : wfHeap h) (h2 : Heap)
    (hx : HExt (allocVal h v).1 h2) (fuel : Nat) (hf : heightV v ≤ fuel) :
    renderA fuel h2 (allocVal h v).2 = some v := by
  cases v with
  | null =>
      rw [allocVal_null] at hx ⊢
      cases fuel with
      | zero => rw [heightV] at hf; exact absurd hf (by omega)
      | succ f =>
          rw [renderA_succ, hx.2 (alloc h HVal.hnull).2 (by simp [alloc]),
              lookupH_alloc_root h hwf HVal.hnull]
  | bool b =>
      rw [allocVal_bool] at hx ⊢
      cases fuel with
      | zero => rw [heightV] at hf; exact absurd hf (by omega)
      | succ f =>
          rw [renderA_succ, hx.2 (alloc h (HVal.hbool b)).2 (by simp [alloc]),
              lookupH_alloc_root h hwf (HVal.hbool b)]
  | int n =>
      rw [allocVal_int] at hx ⊢
      cases fuel with
      | zero => rw [heightV] at hf; exact absurd hf (by omega)
      | succ f =>
          rw [renderA_succ, hx.2 (alloc h (HVal.hint n)).2 (by simp [alloc]),
              lookupH_alloc_root h hwf (HVal.hint n)]
  | str s =>
      rw [allocVal_str] at hx ⊢
      cases fuel with
      | zero => rw [heightV] at hf; exact absurd hf (by omega)
      | succ f =>
          rw [renderA_succ, hx.2 (alloc h (HVal.hstr s)).2 (by simp [alloc]),
              lookupH_alloc_root h hwf (HVal.hstr s)]
  | list xs =>
      rw [allocVal_list] at hx ⊢
      cases fuel with
      | zero => rw [heightV] at hf; exact absurd hf (by omega)
      | succ f =>
          rw [renderA_succ,
              hx.2 (alloc (allocList h xs).1 (.harr (allocList h xs).2)).2
                (by simp [alloc]),
              lookupH_alloc_root (allocList h xs).1 (allocList_wf h xs hwf)
                (.harr (allocList h xs).2)]
          dsimp only
          rw [renderCopyL xs h hwf h2
              ((alloc_HExt (allocList h xs).1 (.harr (allocList h xs).2)).trans hx) f
              (by rw [heightV] at hf; omega)]
          rfl
  | dict kvs =>
      rw [allocVal_dict] at hx ⊢
      cases fuel with
      | zero => rw [heightV] at hf; exact absurd hf (by omega)
      | succ f =>
          rw [renderA_succ,
              hx.2 (alloc (allocFields h kvs).1 (.hobj (allocFields h kvs).2)).2
                (by simp [alloc]),
              lookupH_alloc_root (allocFields h kvs).1 (allocFields_wf h kvs hwf)
                (.hobj (allocFields h kvs).2)]
          dsimp only
          rw [renderCopyF kvs h hwf h2
              ((alloc_HExt (allocFields h kvs).1 (.hobj (allocFields h kvs).2)).trans hx) f
              (by rw [heightV] at hf; omega)]
          rfl

/-- Freshly allocated elements render back to the copied list. -/
theorem renderCopyL (l : List Value) (h : Heap) (hwf : wfHeap h) (h2 : Heap)
    (hx : HExt (allocList h l).1 h2) (fuel : Nat) (hf : heightL l ≤ fuel) :
    renderL fuel h2 (allocList h l).2 = some l := by
  cases l with
  | nil =>
      rw [allocList_nil]
      dsimp only
      rw [renderL_nil]
  | cons v rest =>
      rw [allocList_cons] at hx ⊢
      dsimp only
      rw [renderL_cons]
      rw [heightL] at hf
      rw [renderCopyA v h hwf h2
          ((allocList_HExt (allocVal h v).1 rest).trans hx) fuel (by omega)]
      rw [renderCopyL rest (allocVal h v).1 (allocVal_wf h v hwf) h2 hx fuel (by omega)]

/-- Freshly allocated fields render back to the copied field list. -/
theorem renderCopyF (kvs : List (String × Value)) (h : Heap) (hwf : wfHeap h)
    (h2 : Heap) (hx : HExt (allocFields h kvs).1 h2) (fuel : Nat)
    (hf : heightF kvs ≤ fuel) :
    renderF fuel h2 (allocFields h kvs).2 = some kvs := by
  cases kvs with
  | nil =>
      rw [allocFields_nil]
      dsimp only
      rw [renderF_nil]
  | cons kv rest =>
      obtain ⟨k, v⟩ := kv
      rw [allocFields_cons] at hx ⊢
      dsimp only
      rw [renderF_cons]
      rw [heightF] at hf
      rw [renderCopyA v h hwf h2
          ((allocFields_HExt (allocVal h v).1 rest).trans hx) fuel (by omega)]
      rw [renderCopyF rest (allocVal h v).1 (allocVal_wf h v hwf) h2 hx fuel (by omega)]

end

lemma reach_ge (h2 : Heap) (n : Nat)
    (hclosed : ∀ b v, n ≤ b → lookupH h2 b = some v → ∀ rr ∈ childRefs v, n ≤ rr)
    (r : Nat) (hr : n ≤ r) : ∀ b, Reach h2 r b → n ≤ b := by
  intro b hreach
  induction hreach with
  | refl => exact hr
  | step hab hlk hchild ih => exact hclosed _ _ ih hlk _ hchild

lemma allocVal_closed_above (h : Heap) (v : Value) (hwf : wfHeap h) :
    ∀ b w, h.next ≤ b → lookupH (allocVal h v).1 b = some w →
      ∀ rr ∈ childRefs w, h.next ≤ rr := by
  obtain ⟨tail, hmem, htail, _, _, hle⟩ := allocVal_decomp v h
  intro b w hb hl
  have he : (⟨h.mem ++ tail, (allocVal h v).1.next⟩ : Heap) = (allocVal h v).1 := by
    rw [← hmem]
  rw [← he] at hl
  obtain ⟨q, hq, hq1, hq2⟩ := lookupH_high h tail _ b w hwf hb hl
  subst hq2
  exact fun rr hrr => (((htail q hq).2.2) rr hrr).1

/-- Store heap for the C8 witness: a root object with one string field. -/
def hW : Heap := ⟨[(0, .hobj [("travel_info", 1)]), (1, .hstr "x")], 2⟩

/-- The value stored in `hW` at the root. -/
def valW : Value := .dict [("travel_info", .str "x")]

/-- A tiny value-level store for the C8 witness. -/
def smW : StateManager := ⟨[("a", Value.null)]⟩

/-- Proposed updates for the C8 witness. -/
def uW : List (String × Value) := [("b", Value.int 3)]

/-- C8: `get_state` renders the stored tree and rebuilds it wholly at
fresh addresses, so every cell reachable from the returned root lies at or
above the old allocation frontier; overwriting any such fresh cell leaves
a later render of the store root unchanged; the copy renders back to
exactly the stored value; and `get_proposed_state_diff` leaves the store
unchanged while returning the proposed updates, the current state and the
state a merge would produce. -/
theorem C8_get_state_deep_copy_and_diff
    (h : Heap) (root : Nat) (fuel : Nat) (val : Value) (hv : HVal)
    (sm : StateManager) (u : List (String × Value))
    (hwf : wfHeap h) (hroot : root < h.next)
    (hrender : renderA fuel h root = some val) :
    getStateHeap h root fuel = some (allocVal h val)
    ∧ (∀ b, Reach (allocVal h val).1 (allocVal h val).2 b → h.next ≤ b)
    ∧ (∀ cc, h.next ≤ cc →
        renderA fuel (writeH (allocVal h val).1 cc hv) root = some val)
    ∧ renderA (heightV val) (allocVal h val).1 (allocVal h val).2 = some val
    ∧ (sm.get_proposed_state_diff u).1 = sm
    ∧ (sm.get_proposed_state_diff u).2.proposed_updates = u
    ∧ (sm.get_proposed_state_diff u).2.current_state = sm.get_state
    ∧ (sm.get_proposed_state_diff u).2.proposed_state = deepMerge sm.get_state u := by
  obtain ⟨tail, hmem, htail, hrootLo, hrootHi, hle⟩ := allocVal_decomp val h
  refine ⟨?_, ?_, ?_, ?_, rfl, rfl, rfl, rfl⟩
  · simp [getStateHeap, hrender]
  · exact reach_ge (allocVal h val).1 h.next (allocVal_closed_above h val hwf)
      (allocVal h val).2 hrootLo
  · intro cc hcc
    have hlk : ∀ b, b < h.next →
        lookupH (writeH (allocVal h val).1 cc hv) b = lookupH h b := by
      intro b hb
      rw [lookupH_writeH_ne (allocVal h val).1 cc hv b (by omega)]
      exact (allocVal_HExt h val).2 b hb
    rw [renderA_ext fuel h (writeH (allocVal h val).1 cc hv) root hlk hwf hroot,
        hrender]
  · exact renderCopyA val h hwf (allocVal h val).1 (HExt.refl (allocVal h val).1)
      (heightV val) (le_refl (heightV val))

unseal renderA renderL renderF in
/-- C8 instantiated at a concrete two-cell store heap and a one-binding
value store. -/
theorem C8_get_state_deep_copy_witness :
    ((∀ p ∈ hW.mem, p.1 < hW.next ∧ ∀ r ∈ childRefs p.2, r < hW.next)
      ∧ 0 < hW.next ∧ renderA 2 hW 0 = some valW)
    ∧ (getStateHeap hW 0 2 = some (allocVal hW valW)
      ∧ (∀ b, Reach (allocVal hW valW).1 (allocVal hW valW).2 b → hW.next ≤ b)
      ∧ (∀ cc, hW.next ≤ cc →
          renderA 2 (writeH (allocVal hW valW).1 cc HVal.hnull) 0 = some valW)
      ∧ renderA (heightV valW) (allocVal hW valW).1 (allocVal hW valW).2 = some valW
      ∧ (smW.get_proposed_state_diff uW).1 = smW
      ∧ (smW.get_proposed_state_diff uW).2.proposed_updates = uW
      ∧ (smW.get_proposed_state_diff uW).2.current_state = smW.get_state
      ∧ (smW.get_proposed_state_diff uW).2.proposed_state
          = deepMerge smW.get_state uW) :=
  ⟨⟨by decide, by decide, by decide⟩,
   C8_get_state_deep_copy_and_diff hW 0 2 valW HVal.hnull smW uW
     (by unfold wfHeap; decide) (by decide) (by decide)⟩

end TravelConcierge
